import Mathlib

/-!
# Verification of the Beans puzzle generator

A shallow embedding of the Beans logic-puzzle engine (an 8×8 grid puzzle:
place 8 beans, one per row, one per column, one per colored region, with no
two beans touching, not even diagonally).  JavaScript numbers are embedded as
`Nat`/`Int`, the global mutable game state as an explicit `GameState` record,
and every call to the pseudo-random source as one draw from an explicit
stream of naturals, so every theorem below quantifies over all possible
sequences of random choices.
-/

namespace Beans

/-- A board position: 0-indexed row and column (the `{row, col}` objects of
the source). -/
structure Pos where
  row : Nat
  col : Nat
deriving DecidableEq, Repr

/-- The grid is 8×8: 8 rows, 8 columns, 8 beans, 8 regions (global
`gridSize`). -/
def gridSize : Nat := 8

/-- Two positions touch: both the row distance and the column distance are at
most 1 (this includes diagonal contact and coincidence). -/
def touching (p q : Pos) : Bool :=
  decide (((p.row : Int) - q.row).natAbs ≤ 1) &&
    decide (((p.col : Int) - q.col).natAbs ≤ 1)

/-- `isValidPlacement(row, col, existingBeans)`: scans the existing beans and
returns `false` as soon as one has both `|Δrow| ≤ 1` and `|Δcol| ≤ 1`
relative to the candidate cell, `true` if none does. -/
def isValidPlacement (row col : Nat) (existingBeans : List Pos) : Bool :=
  existingBeans.all fun bean =>
    !(decide (((bean.row : Int) - row).natAbs ≤ 1) &&
      decide (((bean.col : Int) - col).natAbs ≤ 1))

/-- A stream of raw pseudo-random draws together with a read position; a
single `Math.random()` call consumes one draw.  A draw that the source turns
into an index below `n` (`Math.floor(Math.random() * n)`) is embedded as the
draw reduced mod `n`, which ranges over exactly the same values. -/
structure RandState where
  f : Nat → Nat
  pos : Nat

/-- Consume one draw, producing an index in `[0, n)` (for `n > 0`). -/
def randNat (r : RandState) (n : Nat) : Nat × RandState :=
  (r.f r.pos % n, ⟨r.f, r.pos + 1⟩)

/-- Swap the entries at positions `i` and `j` of a list (the destructuring
swap `[a[i], a[j]] = [a[j], a[i]]`). -/
def listSwap (l : List α) (i j : Nat) : List α :=
  match l[i]?, l[j]? with
  | some a, some b => (l.set i b).set j a
  | _, _ => l

/-- The descending loop of the Fisher–Yates shuffle `shuffleArray`: `i` is the
current index (the loop runs while `i > 0`), and each step draws
`j ∈ [0, i]` and swaps entries `i` and `j`. -/
def shuffleGo (r : RandState) (l : List α) : Nat → List α × RandState
  | 0 => (l, r)
  | i + 1 =>
    let (j, r') := randNat r (i + 2)
    shuffleGo r' (listSwap l (i + 1) j) i

/-- `shuffleArray(array)`: Fisher–Yates shuffle driven by the random
stream. -/
def shuffleArray (r : RandState) (l : List α) : List α × RandState :=
  shuffleGo r l (l.length - 1)

seal shuffleArray shuffleGo

/-- The hard-coded fallback pattern of `generateFallbackSolution`. -/
def generateFallbackSolution : List Pos :=
  [⟨0, 0⟩, ⟨1, 4⟩, ⟨2, 7⟩, ⟨3, 5⟩, ⟨4, 2⟩, ⟨5, 6⟩, ⟨6, 1⟩, ⟨7, 3⟩]

/-- The row loop of one attempt of `generateValidSolution`: for each row in
order, scan the shuffled columns for the first one that is not already used
and whose cell does not touch any bean placed so far; abandon the attempt
(`none`) if some row cannot be filled. -/
def placeRows (availableCols : List Nat) : List Nat → List Pos → Option (List Pos)
  | [], sol => some sol
  | row :: rows, sol =>
    match availableCols.find? (fun col =>
        !(sol.map Pos.col).contains col && isValidPlacement row col sol) with
    | some col => placeRows availableCols (rows) (sol ++ [⟨row, col⟩])
    | none => none

/-- The attempt loop of `generateValidSolution`: shuffle the columns, try to
place one bean per row, and retry (up to the remaining attempt budget) on
failure; when the budget runs out, fall back to the pre-made pattern. -/
def generateValidSolutionGo (r : RandState) : Nat → List Pos
  | 0 => generateFallbackSolution
  | attemptsLeft + 1 =>
    let res := shuffleArray r (List.range gridSize)
    match placeRows res.1 (List.range gridSize) [] with
    | some sol => sol
    | none => generateValidSolutionGo res.2 attemptsLeft

/-- `maxAttempts` of `generateValidSolution`. -/
def maxAttempts : Nat := 1000

/-- `generateValidSolution()`, parametrized by the random stream. -/
def generateValidSolution (r : RandState) : List Pos :=
  generateValidSolutionGo r maxAttempts

/-- The solution invariant: exactly `gridSize` positions, pairwise distinct
rows, pairwise distinct columns, and no touching pair. -/
def validSolution (sol : List Pos) : Prop :=
  sol.length = gridSize ∧
    sol.Pairwise (fun p q => p.row ≠ q.row) ∧
    sol.Pairwise (fun p q => p.col ≠ q.col) ∧
    sol.Pairwise (fun p q => touching p q = false)

instance : DecidablePred validSolution := fun sol => by
  unfold validSolution
  infer_instance

/-! ## Region generation -/

/-- The flat index `row * gridSize + col` of a position. -/
def cellIndex (p : Pos) : Nat := p.row * gridSize + p.col

/-- The position of a flat cell index. -/
def cellPos (i : Nat) : Pos := ⟨i / gridSize, i % gridSize⟩

/-- Read `regions[i]`.  Every read performed by the source is in bounds; an
out-of-range read defaults to `0` here. -/
def regAt (regs : List Int) (i : Nat) : Int := regs.getD i 0

/-- `maxRegenerationAttempts` of `generateRegionsFromSolution`. -/
def maxRegenerationAttempts : Nat := 10

/-- Step 1 of `generateRegionsFromSolution`: `solution.forEach((bean,
regionIndex) => regions[bean.row*gridSize+bean.col] = regionIndex)`. -/
def seedRegions : List Int → List Pos → Nat → List Int
  | regs, [], _ => regs
  | regs, bean :: rest, regionIndex =>
    seedRegions (regs.set (cellIndex bean) (regionIndex : Int)) rest (regionIndex + 1)

/-- The per-region frontier queues, each initialized with its solution
bean. -/
def initQueues (sol : List Pos) : List (List Pos) :=
  (List.range gridSize).map fun i =>
    match sol[i]? with
    | some bean => [bean]
    | none => []

/-- The four neighbor candidates of a cell in source order (Up, Down, Left,
Right); they may fall off the board. -/
def neighborCands (current : Pos) : List (Int × Int) :=
  [((current.row : Int) - 1, (current.col : Int)),
   ((current.row : Int) + 1, (current.col : Int)),
   ((current.row : Int), (current.col : Int) - 1),
   ((current.row : Int), (current.col : Int) + 1)]

/-- The bounds check `0 ≤ row < gridSize && 0 ≤ col < gridSize`. -/
def inBounds (rc : Int × Int) : Bool :=
  decide (0 ≤ rc.1) && decide (rc.1 < (gridSize : Int)) &&
    decide (0 ≤ rc.2) && decide (rc.2 < (gridSize : Int))

/-- Scan the (shuffled) neighbor candidates: skip out-of-bounds ones and
return the first whose cell is still unassigned (`regions[idx] === -1`). -/
def claimFirst (regs : List Int) : List (Int × Int) → Option Pos
  | [] => none
  | rc :: rest =>
    if inBounds rc then
      if regAt regs (rc.1.toNat * gridSize + rc.2.toNat) = -1 then
        some ⟨rc.1.toNat, rc.2.toNat⟩
      else claimFirst regs rest
    else claimFirst regs rest

/-- Result of one region's turn inside a growth round. -/
structure TurnResult where
  regs : List Int
  queue : List Pos
  claimed : Bool
  rand : RandState

/-- One region's turn in the round-robin growth: if its queue is non-empty,
dequeue one cell, shuffle its four neighbor candidates, and claim the first
unassigned in-bounds one (marking it and enqueuing it); at most one cell is
claimed per turn. -/
def regionTurn (r : RandState) (regs : List Int) (queue : List Pos)
    (regionIndex : Nat) : TurnResult :=
  match queue with
  | [] => ⟨regs, [], false, r⟩
  | current :: queueRest =>
    let sh := shuffleArray r (neighborCands current)
    match claimFirst regs sh.1 with
    | some p => ⟨regs.set (cellIndex p) (regionIndex : Int), queueRest ++ [p], true, sh.2⟩
    | none => ⟨regs, queueRest, false, sh.2⟩

/-- Result of one full growth round. -/
structure RoundResult where
  regs : List Int
  queues : List (List Pos)
  un : Nat
  added : Bool
  rand : RandState

/-- One full round of the growth loop: each region in index order takes one
turn; `un` is the source's `unassignedCount`, decremented on every claim, and
`added` is `addedThisRound`. -/
def roundGo (r : RandState) (regs : List Int) (idx : Nat) :
    List (List Pos) → Nat → Bool → RoundResult
  | [], un, added => ⟨regs, [], un, added, r⟩
  | q :: qs, un, added =>
    let t := regionTurn r regs q idx
    let rest := roundGo t.rand t.regs (idx + 1) qs (if t.claimed then un - 1 else un)
      (added || t.claimed)
    ⟨rest.regs, t.queue :: rest.queues, rest.un, rest.added, rest.rand⟩

/-- The spiral scan of one Chebyshev square in `findClosestRegion`: offsets
`-distance .. distance`. -/
def offsets (distance : Nat) : List Int :=
  (List.range (2 * distance + 1)).map fun k => (k : Int) - (distance : Int)

/-- Scan the square of the given radius around a cell (in `dr`-major order,
exactly as the nested `for` loops do) and return the first assigned region
value found. -/
def scanSquare (regs : List Int) (row col : Nat) (distance : Nat) : Option Int :=
  (offsets distance).findSome? fun dr =>
    (offsets distance).findSome? fun dc =>
      let nr := (row : Int) + dr
      let nc := (col : Int) + dc
      if inBounds (nr, nc) then
        if regAt regs (nr.toNat * gridSize + nc.toNat) ≠ -1 then
          some (regAt regs (nr.toNat * gridSize + nc.toNat))
        else none
      else none

/-- `findClosestRegion(cellIndex)`: spiral outward (radius 1 to
`gridSize - 1`) and return the first assigned region encountered, or region 0
as a fallback. -/
def findClosestRegion (regs : List Int) (cellIndex : Nat) : Int :=
  ((List.range' 1 (gridSize - 1)).findSome? fun distance =>
    scanSquare regs (cellIndex / gridSize) (cellIndex % gridSize) distance).getD 0

/-- The stall-recovery fill: walk all cells in index order and assign each
still-unassigned one to its closest region (reads see the fills already made
earlier in the same walk). -/
def stallFill (regs : List Int) : List Nat → List Int
  | [] => regs
  | i :: rest =>
    if regAt regs i = -1 then stallFill (regs.set i (findClosestRegion regs i)) rest
    else stallFill regs rest

/-- The growth `while` loop of `generateRegionsFromSolution`, with an
explicit iteration budget: run rounds until every cell is claimed; if a round
claims nothing, fill the remaining cells by `findClosestRegion` and stop.
Every continuing round claims at least one cell, so `un` bounds the number of
rounds and `growLoop` below runs the loop to completion with budget `un`. -/
def growLoopGo (r : RandState) (regs : List Int) (queues : List (List Pos)) (un : Nat) :
    Nat → List Int × RandState
  | 0 => (regs, r)
  | fuel + 1 =>
    if un = 0 then (regs, r)
    else
      let res := roundGo r regs 0 queues un false
      if res.added then growLoopGo res.rand res.regs res.queues res.un fuel
      else (stallFill res.regs (List.range (gridSize * gridSize)), res.rand)

/-- The growth `while` loop, entered with `unassignedCount = un`. -/
def growLoop (r : RandState) (regs : List Int) (queues : List (List Pos)) (un : Nat) :
    List Int × RandState :=
  growLoopGo r regs queues un un

/-! ## Region connectivity check -/

/-- The in-bounds 4-neighbors of a position (source order Up, Down, Left,
Right; the loops skip out-of-bounds candidates). -/
def neighbors4 (current : Pos) : List Pos :=
  (neighborCands current).filterMap fun rc =>
    if inBounds rc then some ⟨rc.1.toNat, rc.2.toNat⟩ else none

/-- The neighbor scan of one BFS step of `isRegionConnected`: skip visited
cells and cells outside the region, and add the rest to `visited` and to the
queue. -/
def bfsVisit (regs : List Int) (regionNumber : Int) :
    List Pos → List Nat → List Pos → List Nat × List Pos
  | [], visited, queue => (visited, queue)
  | n :: rest, visited, queue =>
    if visited.contains (cellIndex n) then bfsVisit regs regionNumber rest visited queue
    else if regAt regs (cellIndex n) = regionNumber then
      bfsVisit regs regionNumber rest (visited ++ [cellIndex n]) (queue ++ [n])
    else bfsVisit regs regionNumber rest visited queue

/-- The BFS `while (queue.length > 0)` loop of `isRegionConnected`, with an
explicit iteration budget.  Each iteration enqueues exactly as many cells as
it adds to `visited`, visited cells are distinct board cells, so
`gridSize² - |visited| + |queue|` strictly decreases each iteration and a
budget of `gridSize²` always runs the loop until the queue is empty (see
`bfsLoop_queue_empties`). -/
def bfsLoop (regs : List Int) (regionNumber : Int) :
    Nat → List Pos → List Nat → List Nat
  | 0, _, visited => visited
  | fuel + 1, queue, visited =>
    match queue with
    | [] => visited
    | current :: rest =>
      bfsLoop regs regionNumber fuel
        (bfsVisit regs regionNumber (neighbors4 current) visited rest).2
        (bfsVisit regs regionNumber (neighbors4 current) visited rest).1

/-- The cells of a region, in index order (`regionCells` of the source,
keeping just the flat indices). -/
def regionCellsOf (regs : List Int) (regionNumber : Int) : List Nat :=
  (List.range (gridSize * gridSize)).filter fun i =>
    decide (regAt regs i = regionNumber)

/-- `isRegionConnected(regionNumber)`: a region of at most one cell is
connected; otherwise flood-fill from the region's first cell (with iteration
budget `gridSize²`, which always empties the queue) and check that the
number of visited cells equals the region's size. -/
def isRegionConnected (regs : List Int) (regionNumber : Int) : Bool :=
  match regionCellsOf regs regionNumber with
  | [] => true
  | [_] => true
  | c0 :: _ :: _ =>
    (bfsLoop regs regionNumber (gridSize * gridSize) [cellPos c0] [c0]).length ==
      (regionCellsOf regs regionNumber).length

/-- One complete partition attempt of `generateRegionsFromSolution` (steps
1–3): seed the regions at the solution beans, then run the growth loop on
the remaining `gridSize² - gridSize` cells. -/
def buildRegions (r : RandState) (sol : List Pos) : List Int × RandState :=
  growLoop r (seedRegions (List.replicate (gridSize * gridSize) (-1)) sol 0)
    (initQueues sol) (gridSize * gridSize - gridSize)

/-- The retry recursion of `generateRegionsFromSolution`: while attempts
remain, build a partition and accept it if every region passes
`isRegionConnected`, else recurse with the built (disconnected) partition as
the new current regions; with no attempts left return the current regions
unchanged. -/
def generateRegionsFromSolutionGo (sol : List Pos) :
    Nat → RandState → List Int → List Int × RandState
  | 0, r, current => (current, r)
  | remaining + 1, r, current =>
    let built := buildRegions r sol
    if (List.range gridSize).all (fun rg => isRegionConnected built.1 (rg : Int)) then built
    else generateRegionsFromSolutionGo sol remaining built.2 built.1

/-- `generateRegionsFromSolution(attemptNumber)` proper: `remaining =
maxRegenerationAttempts - attemptNumber` regeneration attempts are left (at
the recursion cap none are, and the current regions are returned
unchanged). -/
def generateRegionsFromSolution (r : RandState) (sol : List Pos) (current : List Int)
    (attemptNumber : Nat) : List Int × RandState :=
  generateRegionsFromSolutionGo sol (maxRegenerationAttempts - attemptNumber) r current

/-! ## Uniqueness counting -/

/-- `maxSolutions` of `countSolutions`: the search stops once 2 solutions
have been found. -/
def maxSolutions : Nat := 2

/-- The recursive helper `solve(row, placedBeans, usedCols, usedRegions)` of
`countSolutions`.  `rows` is the list of remaining row indices; the used
column set and used region set are exactly the columns, resp. region values,
of `placed`.  Returns the updated solution counter and the stop signal: at
the base case the counter is incremented and the search signals stop once the
counter reaches `maxSolutions`; the column loop aborts as soon as a recursive
call signals stop. -/
def solve (regs : List Int) : List Nat → List Pos → Nat → Nat × Bool
  | [], _, count => (count + 1, decide (maxSolutions ≤ count + 1))
  | row :: rest, placed, count =>
    (List.range gridSize).foldl
      (fun acc col =>
        if acc.2 then acc
        else if (placed.map Pos.col).contains col then acc
        else if (placed.map fun b => regAt regs (cellIndex b)).contains
            (regAt regs (row * gridSize + col)) then acc
        else if placed.any (fun bean => touching bean ⟨row, col⟩) then acc
        else solve regs rest (placed ++ [⟨row, col⟩]) acc.1)
      (count, false)

/-- `countSolutions()`: run the backtracking search from row 0 with an empty
partial placement and return the (capped) solution counter. -/
def countSolutions (regs : List Int) : Nat :=
  (solve regs (List.range gridSize) [] 0).1

/-! ## Global game state -/

/-- The global mutable state of the game that the claims are about (the DOM
and timer are outside the model). -/
structure GameState where
  solution : List Pos
  regions : List Int
  beansPlaced : List Pos
  xMarkers : List Pos
  autoXMarkers : List Pos
  gameActive : Bool
deriving DecidableEq, Repr

/-- The region-regeneration step used by `initializeGame`: a call of
`generateRegionsFromSolution()` (default `attemptNumber = 0`) reads the
global `solution` and the current global `regions` and overwrites only
`regions`. -/
def regenerateRegions (r : RandState) (s : GameState) : GameState × RandState :=
  let res := generateRegionsFromSolution r s.solution s.regions 0
  ({ s with regions := res.1 }, res.2)

/-- Step 2.5 of `initializeGame`: `while (true) { if (countSolutions() === 1)
break; else regenerate regions }`.  The source loop is unbounded, so it is
embedded with a fuel counter; `none` models a run that is still looping
after `fuel` iterations. -/
def initializeGameLoop (r : RandState) (s : GameState) : Nat → Option (GameState × RandState)
  | 0 => none
  | fuel + 1 =>
    if countSolutions s.regions = 1 then some (s, r)
    else
      let res := regenerateRegions r s
      initializeGameLoop res.2 res.1 fuel

/-- `countSolutions()` at the level of the global game state: the function
reads `regions` (and locals only) and assigns no global variable, so the
state passes through unchanged. -/
def countSolutionsS (s : GameState) : Nat × GameState :=
  (countSolutions s.regions, s)

/-! ## Player placement validation (`checkSolution`) -/

/-- One rule violation collected by `checkSolution`, keeping the data of the
corresponding message. -/
inductive Violation where
  | rowCount (row : Nat)
  | colCount (col : Nat)
  | regionCount (region : Nat)
  | adjacentPair (p q : Pos)
deriving DecidableEq, Repr

/-- All index-ordered pairs of a list (the double loop `i < j`). -/
def allPairs : List α → List (α × α)
  | [] => []
  | b :: bs => (bs.map fun c => (b, c)) ++ allPairs bs

/-- RULE 1 of `checkSolution`: the rows that do not contain exactly one
bean, in row order. -/
def rowCountViolations (beans : List Pos) : List Nat :=
  (List.range gridSize).filter fun i =>
    decide ((beans.filter fun b => decide (b.row = i)).length ≠ 1)

/-- RULE 2 of `checkSolution`: the columns that do not contain exactly one
bean, in column order. -/
def colCountViolations (beans : List Pos) : List Nat :=
  (List.range gridSize).filter fun j =>
    decide ((beans.filter fun b => decide (b.col = j)).length ≠ 1)

/-- RULE 3 of `checkSolution`: the regions that do not contain exactly one
bean, in region order. -/
def regionCountViolations (regs : List Int) (beans : List Pos) : List Nat :=
  (List.range gridSize).filter fun rg =>
    decide ((beans.filter fun b => decide (regAt regs (cellIndex b) = (rg : Int))).length ≠ 1)

/-- RULE 4 of `checkSolution`: the touching pairs, in index-pair order. -/
def touchingPairs (beans : List Pos) : List (Pos × Pos) :=
  (allPairs beans).filter fun pq => touching pq.1 pq.2

/-- The full violation list collected by `checkSolution`, in source order
(rows, then columns, then regions, then touching pairs). -/
def checkErrors (regs : List Int) (beans : List Pos) : List Violation :=
  (rowCountViolations beans).map Violation.rowCount ++
    (colCountViolations beans).map Violation.colCount ++
    (regionCountViolations regs beans).map Violation.regionCount ++
    (touchingPairs beans).map fun pq => Violation.adjacentPair pq.1 pq.2

/-- The observable outcome of a `checkSolution()` call. -/
inductive CheckResult where
  | notActive
  | notAllBeans
  | solved
  | hasErrors (errors : List Violation)
deriving DecidableEq, Repr

/-- `checkSolution()`: no-op when the game is over; an error message (and no
rule evaluation) when fewer or more than `gridSize` beans are placed;
otherwise collect all rule violations — on success the game is stopped, on
failure the state is left unchanged. -/
def checkSolution (s : GameState) : GameState × CheckResult :=
  if s.gameActive = false then (s, CheckResult.notActive)
  else if s.beansPlaced.length ≠ gridSize then (s, CheckResult.notAllBeans)
  else
    let errors := checkErrors s.regions s.beansPlaced
    if errors.isEmpty then ({ s with gameActive := false }, CheckResult.solved)
    else (s, CheckResult.hasErrors errors)

/-- A fully-assigned board: any growth round on it claims nothing. -/
def c7Regs : List Int := List.replicate (gridSize * gridSize) 0

/-- Frontier queues (each at most one cell) for the stalled-round witness. -/
def c7Queues : List (List Pos) := [[⟨0, 0⟩], [], [⟨3, 3⟩]]

/-- A concrete random stream for the stalled-round witness. -/
def c7Rand : RandState := ⟨fun _ => 0, 0⟩


/-! ## Connectivity specification -/

/-- 4-adjacency of two positions: they share a horizontal or vertical
edge. -/
def adj4 (p q : Pos) : Prop :=
  (p.row = q.row ∧ (p.col + 1 = q.col ∨ q.col + 1 = p.col)) ∨
    (p.col = q.col ∧ (p.row + 1 = q.row ∨ q.row + 1 = p.row))

instance (p q : Pos) : Decidable (adj4 p q) := by
  unfold adj4
  infer_instance

/-- One step inside the cell set labeled `rg`: move to an on-board
4-neighbor carrying the same label. -/
def regionStep (regs : List Int) (rg : Int) (a b : Nat) : Prop :=
  b < gridSize * gridSize ∧ regAt regs b = rg ∧ adj4 (cellPos a) (cellPos b)

instance (regs : List Int) (rg : Int) (a b : Nat) : Decidable (regionStep regs rg a b) := by
  unfold regionStep
  infer_instance

/-- The cell set labeled `rg` is 4-connected: between any two of its
on-board cells there is a path of `regionStep` moves (empty and singleton
cell sets are trivially connected). -/
def regionConnectedSpec (regs : List Int) (rg : Int) : Prop :=
  ∀ a b, a < gridSize * gridSize → b < gridSize * gridSize →
    regAt regs a = rg → regAt regs b = rg →
    Relation.ReflTransGen (regionStep regs rg) a b

/-- An adversarial random stream (every draw is 4) under which every
partition attempt stalls and the nearest-region fill splits region 3. -/
def c2Rand : RandState := ⟨fun _ => 4, 0⟩

/-- The region map that `generateRegionsFromSolution` produces from the
fallback solution under `c2Rand` when entered at recursion depth 9 (the last
attempt before the cap), spelled out as a literal: region 3 consists of the
cells 24–29, 35–38 and the isolated cell 47. -/
def c2Map : List Int :=
  [0, 0, 0, 0, 0, 0, 0, 0,
   1, 1, 1, 1, 1, 0, 0, 0,
   1, 1, 2, 2, 2, 2, 2, 2,
   3, 3, 3, 3, 3, 3, 2, 2,
   4, 4, 4, 3, 3, 3, 3, 2,
   4, 4, 5, 5, 5, 5, 5, 3,
   6, 6, 5, 5, 5, 5, 5, 5,
   6, 7, 7, 7, 5, 5, 5, 5]


/-- Well-formedness of a solution as a region-generation input: `gridSize`
beans, all on the board, with pairwise distinct rows. -/
def solWellFormed (sol : List Pos) : Prop :=
  sol.length = gridSize ∧ (∀ b ∈ sol, b.row < gridSize ∧ b.col < gridSize) ∧
    sol.Pairwise fun p q => p.row ≠ q.row

instance : DecidablePred solWellFormed := fun sol => by
  unfold solWellFormed
  infer_instance

/-- The number of unassigned (`-1`) cells of a region board (the quantity the
source tracks in `unassignedCount`). -/
def unassignedCells (regs : List Int) : Nat :=
  regs.countP fun v => decide (v = -1)

/-- Well-formedness of a partly built region board over a solution: 64
cells, every cell unassigned or labeled with an id below `gridSize`, and
solution bean `k` sitting on a cell labeled `k`. -/
def regsWF (sol : List Pos) (regs : List Int) : Prop :=
  regs.length = gridSize * gridSize ∧
    (∀ i < gridSize * gridSize,
      regAt regs i = -1 ∨ (0 ≤ regAt regs i ∧ regAt regs i < (gridSize : Int))) ∧
    (∀ (k : Nat) (b : Pos), sol[k]? = some b → regAt regs (cellIndex b) = (k : Int))

/-- A completely built region board: every cell labeled with an id below
`gridSize`, and solution bean `k` on a cell labeled `k`. -/
def regionsComplete (sol : List Pos) (regs : List Int) : Prop :=
  regs.length = gridSize * gridSize ∧
    (∀ i < gridSize * gridSize, 0 ≤ regAt regs i ∧ regAt regs i < (gridSize : Int)) ∧
    (∀ (k : Nat) (b : Pos), sol[k]? = some b → regAt regs (cellIndex b) = (k : Int))


/-! ## Uniqueness-count specification -/

/-- A cell `(row, col)` is available to extend the partial placement
`placed`: its column is unused, its region is unused, and it touches no
placed bean (the three skip tests of `solve`, bundled). -/
def okCell (regs : List Int) (placed : List Pos) (row col : Nat) : Bool :=
  !(placed.map Pos.col).contains col &&
    !(placed.map fun b => regAt regs (cellIndex b)).contains
      (regAt regs (row * gridSize + col)) &&
    !placed.any fun bean => touching bean ⟨row, col⟩

/-- The uncapped enumeration mirroring `solve`: all completions of `placed`
over the remaining rows. -/
def solLists (regs : List Int) : List Nat → List Pos → List (List Pos)
  | [], placed => [placed]
  | row :: rest, placed =>
    (List.range gridSize).flatMap fun col =>
      if okCell regs placed row col then solLists regs rest (placed ++ [⟨row, col⟩])
      else []

/-- All sequences of `n` column choices, one per row (every placement with
exactly one marker per row arises this way). -/
def allAssignments : Nat → List (List Nat)
  | 0 => [[]]
  | n + 1 => (List.range gridSize).flatMap fun col => (allAssignments n).map (col :: ·)

/-- The markers determined by one column choice per row of `rows`. -/
def beansOfRows (rows cs : List Nat) : List Pos :=
  (rows.zip cs).map fun rc => ⟨rc.1, rc.2⟩

/-- The markers of a column assignment: marker `j` in row `j`. -/
def beansOfCols (cs : List Nat) : List Pos :=
  beansOfRows (List.range gridSize) cs

/-- A column choice `cs` extends `placed` validly step by step (the
incremental condition enforced by the backtracking search). -/
def seqValid (regs : List Int) : List Pos → List Nat → List Nat → Bool
  | _, [], [] => true
  | placed, row :: rows, col :: cols =>
    okCell regs placed row col && seqValid regs (placed ++ [⟨row, col⟩]) rows cols
  | _, _, _ => false

/-- The four placement constraints, exactly as the claim words them: one
marker per row, one per column, one per region, and no touching pair. -/
def fourConstraintsHold (regs : List Int) (cs : List Nat) : Bool :=
  ((List.range gridSize).all fun i =>
    decide (((beansOfCols cs).filter fun b => decide (b.row = i)).length = 1)) &&
    ((List.range gridSize).all fun j =>
      decide (((beansOfCols cs).filter fun b => decide (b.col = j)).length = 1)) &&
    ((List.range gridSize).all fun rg =>
      decide (((beansOfCols cs).filter fun b =>
        decide (regAt regs (cellIndex b) = (rg : Int))).length = 1)) &&
    ((allPairs (beansOfCols cs)).all fun pq => !touching pq.1 pq.2)

/-- The exact number of placements of `gridSize` markers satisfying all four
constraints (markers violating one-per-row are excluded by the row
constraint, so enumerating one column per row loses nothing). -/
def exactSolutionCount (regs : List Int) : Nat :=
  ((allAssignments gridSize).filter (fourConstraintsHold regs)).length


/-- The column-loop body of `solve` for one fixed row (the fold function of
the `for col` loop, named so the fold can be reasoned about). -/
def solveF (regs : List Int) (row : Nat) (rest : List Nat) (placed : List Pos) :
    Nat × Bool → Nat → Nat × Bool :=
  fun acc col =>
    if acc.2 then acc
    else if (placed.map Pos.col).contains col then acc
    else if (placed.map fun b => regAt regs (cellIndex b)).contains
        (regAt regs (row * gridSize + col)) then acc
    else if placed.any (fun bean => touching bean ⟨row, col⟩) then acc
    else solve regs rest (placed ++ [⟨row, col⟩]) acc.1

/-- Two markers are mutually acceptable to the search: distinct columns,
distinct regions, and not touching. -/
def compat (regs : List Int) (p q : Pos) : Prop :=
  p.col ≠ q.col ∧ regAt regs (cellIndex p) ≠ regAt regs (cellIndex q) ∧
    touching p q = false

/-- A concrete well-formed region map (region = row index) used to
instantiate theorems about `countSolutions`. -/
def c4Regs : List Int :=
  (List.range (gridSize * gridSize)).map fun i => ((i / gridSize : Nat) : Int)


/-- A hand-built region map whose puzzle has exactly one solution: each
cell of the fallback solution is alone in its own region, all other cells
share region id 8. -/
def uniqueRegs : List Int :=
  [0, 8, 8, 8, 8, 8, 8, 8,
   8, 8, 8, 8, 1, 8, 8, 8,
   8, 8, 8, 8, 8, 8, 8, 2,
   8, 8, 8, 8, 8, 3, 8, 8,
   8, 8, 4, 8, 8, 8, 8, 8,
   8, 8, 8, 8, 8, 8, 5, 8,
   8, 6, 8, 8, 8, 8, 8, 8,
   8, 8, 8, 7, 8, 8, 8, 8]

/-- A game state carrying the fallback solution and the unique-solution
region map. -/
def uniqueState : GameState :=
  ⟨generateFallbackSolution, uniqueRegs, [], [], [], true⟩

/-! # Theorems -/

theorem natAbs_sub_comm (a b : Int) : (a - b).natAbs = (b - a).natAbs := by
  omega

theorem touching_comm (p q : Pos) : touching p q = touching q p := by
  unfold touching
  rw [natAbs_sub_comm (p.row : Int) (q.row : Int),
    natAbs_sub_comm (p.col : Int) (q.col : Int)]

theorem isValidPlacement_eq_all (row col : Nat) (l : List Pos) :
    isValidPlacement row col l = l.all fun bean => !touching bean ⟨row, col⟩ := rfl

theorem pairwise_append_singleton {α : Type _} {R : α → α → Prop} {l : List α} {b : α}
    (h : l.Pairwise R) (hb : ∀ a ∈ l, R a b) : (l ++ [b]).Pairwise R := by
  rw [List.pairwise_append]
  refine ⟨h, List.pairwise_singleton _ _, fun a ha c hc => ?_⟩
  simp only [List.mem_singleton] at hc
  subst hc
  exact hb a ha

theorem placeRows_spec (cols : List Nat) :
    ∀ rows sol out, placeRows cols rows sol = some out →
      sol.Pairwise (fun p q => p.col ≠ q.col) →
      sol.Pairwise (fun p q => touching p q = false) →
      out.map Pos.row = sol.map Pos.row ++ rows ∧
        out.Pairwise (fun p q => p.col ≠ q.col) ∧
        out.Pairwise (fun p q => touching p q = false)
  | [], sol, out, h, hc, ht => by
    cases h
    simpa using ⟨hc, ht⟩
  | row :: rows, sol, out, h, hc, ht => by
    rw [placeRows] at h
    cases hfind : cols.find? (fun col =>
        !(sol.map Pos.col).contains col && isValidPlacement row col sol) with
    | none => rw [hfind] at h; cases h
    | some col =>
      rw [hfind] at h
      have hp := List.find?_some hfind
      rw [Bool.and_eq_true] at hp
      have hcol : col ∉ sol.map Pos.col := by
        have := hp.1
        simp only [Bool.not_eq_true'] at this
        simpa using this
      have htouch : ∀ bean ∈ sol, touching bean ⟨row, col⟩ = false := by
        have := hp.2
        rw [isValidPlacement_eq_all, List.all_eq_true] at this
        intro bean hbean
        have := this bean hbean
        simpa using this
      have hc' : (sol ++ [(⟨row, col⟩ : Pos)]).Pairwise (fun p q => p.col ≠ q.col) := by
        refine pairwise_append_singleton hc (fun a ha hEq => hcol ?_)
        have hEq2 : a.col = col := hEq
        exact hEq2 ▸ List.mem_map_of_mem Pos.col ha
      have ht' : (sol ++ [(⟨row, col⟩ : Pos)]).Pairwise (fun p q => touching p q = false) :=
        pairwise_append_singleton ht htouch
      obtain ⟨h1, h2, h3⟩ := placeRows_spec cols rows (sol ++ [⟨row, col⟩]) out h hc' ht'
      refine ⟨?_, h2, h3⟩
      rw [h1]
      simp

theorem generateValidSolutionGo_valid (n : Nat) :
    ∀ r : RandState, validSolution (generateValidSolutionGo r n) := by
  induction n with
  | zero =>
    intro r
    rw [generateValidSolutionGo]
    decide
  | succ n ih =>
    intro r
    rw [generateValidSolutionGo]
    cases h : placeRows (shuffleArray r (List.range gridSize)).1 (List.range gridSize) [] with
    | none => simpa [h] using ih _
    | some sol =>
      simp only [h]
      obtain ⟨hrow, hcol, ht⟩ := placeRows_spec _ _ _ _ h (by simp) (by simp)
      simp only [List.map_nil, List.nil_append] at hrow
      refine ⟨?_, ?_, hcol, ht⟩
      · have := congrArg List.length hrow
        simpa [gridSize] using this
      · have hnd : (sol.map Pos.row).Nodup := by rw [hrow]; exact List.nodup_range _
        rw [List.Nodup, List.pairwise_map] at hnd
        exact hnd

/-- **C1.** For every run of `generateValidSolution` — any sequence of random
draws, including runs that exhaust all attempts and fall through to the
fallback pattern — the resulting solution consists of exactly `gridSize`
positions with pairwise distinct rows, pairwise distinct columns, and no two
positions touching (no pair with both `|Δrow| ≤ 1` and `|Δcol| ≤ 1`). -/
theorem generateValidSolution_valid (r : RandState) :
    validSolution (generateValidSolution r) :=
  generateValidSolutionGo_valid maxAttempts r

/-- **C5.** `isValidPlacement` returns `false` iff some existing bean is
within distance 1 of the candidate in both coordinates (which includes the
exact-duplicate case `Δrow = Δcol = 0`). -/
theorem isValidPlacement_false_iff (row col : Nat) (existingBeans : List Pos) :
    isValidPlacement row col existingBeans = false ↔
      ∃ bean ∈ existingBeans,
        ((bean.row : Int) - row).natAbs ≤ 1 ∧ ((bean.col : Int) - col).natAbs ≤ 1 := by
  simp [isValidPlacement, List.all_eq_false]

theorem roundGo_un_le : ∀ (qs : List (List Pos)) (r : RandState) (regs : List Int)
    (idx : Nat) (un : Nat) (added : Bool),
    (roundGo r regs idx qs un added).un ≤ un ∧
      ((roundGo r regs idx qs un added).added = true →
        added = true ∨ (roundGo r regs idx qs un added).un < un ∨ un = 0)
  | [], r, regs, idx, un, added => by
    rw [roundGo]
    exact ⟨Nat.le_refl _, fun h => Or.inl h⟩
  | q :: qs, r, regs, idx, un, added => by
    rw [roundGo]
    have ih := roundGo_un_le qs (regionTurn r regs q idx).rand (regionTurn r regs q idx).regs
      (idx + 1) (if (regionTurn r regs q idx).claimed then un - 1 else un)
      (added || (regionTurn r regs q idx).claimed)
    cases hcl : (regionTurn r regs q idx).claimed with
    | false =>
      simp only [hcl, Bool.false_eq_true, if_false, Bool.or_false] at ih ⊢
      exact ih
    | true =>
      simp only [hcl, if_true, Bool.or_true] at ih ⊢
      refine ⟨Nat.le_trans ih.1 (Nat.sub_le _ _), fun _ => ?_⟩
      rcases Nat.eq_zero_or_pos un with h0 | hpos
      · exact Or.inr (Or.inr h0)
      · exact Or.inr (Or.inl (Nat.lt_of_le_of_lt ih.1 (Nat.sub_lt hpos Nat.one_pos)))

theorem bfsVisit_length (regs : List Int) (regionNumber : Int) :
    ∀ (nbrs : List Pos) (visited : List Nat) (queue : List Pos),
    (bfsVisit regs regionNumber nbrs visited queue).1.length + queue.length =
      visited.length + (bfsVisit regs regionNumber nbrs visited queue).2.length ∧
    visited.length ≤ (bfsVisit regs regionNumber nbrs visited queue).1.length
  | [], visited, queue => by rw [bfsVisit]; simp
  | n :: rest, visited, queue => by
    rw [bfsVisit]
    by_cases h1 : visited.contains (cellIndex n)
    · rw [if_pos h1]
      exact bfsVisit_length regs regionNumber rest visited queue
    · rw [if_neg h1]
      by_cases h2 : regAt regs (cellIndex n) = regionNumber
      · rw [if_pos h2]
        have ih := bfsVisit_length regs regionNumber rest (visited ++ [cellIndex n])
          (queue ++ [n])
        simp only [List.length_append, List.length_singleton] at ih ⊢
        omega
      · rw [if_neg h2]
        exact bfsVisit_length regs regionNumber rest visited queue

theorem bfsVisit_nodup (regs : List Int) (regionNumber : Int) :
    ∀ (nbrs : List Pos) (visited : List Nat) (queue : List Pos),
    visited.Nodup → (bfsVisit regs regionNumber nbrs visited queue).1.Nodup
  | [], visited, queue, h => by rw [bfsVisit]; exact h
  | n :: rest, visited, queue, h => by
    rw [bfsVisit]
    by_cases h1 : visited.contains (cellIndex n)
    · rw [if_pos h1]
      exact bfsVisit_nodup regs regionNumber rest visited queue h
    · rw [if_neg h1]
      by_cases h2 : regAt regs (cellIndex n) = regionNumber
      · rw [if_pos h2]
        refine bfsVisit_nodup regs regionNumber rest _ _ ?_
        have h1m : cellIndex n ∉ visited := by simpa using h1
        rw [List.nodup_append]
        refine ⟨h, List.nodup_singleton _, ?_⟩
        intro a ha hb
        simp only [List.mem_singleton] at hb
        subst hb
        exact h1m ha
      · rw [if_neg h2]
        exact bfsVisit_nodup regs regionNumber rest visited queue h

theorem mem_neighbors4_lt {current n : Pos} (h : n ∈ neighbors4 current) :
    n.row < gridSize ∧ n.col < gridSize := by
  unfold neighbors4 at h
  rw [List.mem_filterMap] at h
  obtain ⟨rc, _, hif⟩ := h
  by_cases hb : inBounds rc = true
  · rw [if_pos hb] at hif
    cases hif
    unfold inBounds at hb
    simp only [Bool.and_eq_true, decide_eq_true_eq] at hb
    constructor <;> [skip; skip] <;> simp only [] <;> omega
  · rw [if_neg hb] at hif
    cases hif

theorem bfsVisit_lt (regs : List Int) (regionNumber : Int) :
    ∀ (nbrs : List Pos) (visited : List Nat) (queue : List Pos),
    (∀ i ∈ visited, i < gridSize * gridSize) →
    (∀ n ∈ nbrs, cellIndex n < gridSize * gridSize) →
    ∀ i ∈ (bfsVisit regs regionNumber nbrs visited queue).1, i < gridSize * gridSize
  | [], visited, queue, hv, _ => by rw [bfsVisit]; exact hv
  | n :: rest, visited, queue, hv, hn => by
    rw [bfsVisit]
    by_cases h1 : visited.contains (cellIndex n)
    · rw [if_pos h1]
      exact bfsVisit_lt regs regionNumber rest visited queue hv
        (fun m hm => hn m (List.mem_cons_of_mem _ hm))
    · rw [if_neg h1]
      by_cases h2 : regAt regs (cellIndex n) = regionNumber
      · rw [if_pos h2]
        refine bfsVisit_lt regs regionNumber rest _ _ ?_
          (fun m hm => hn m (List.mem_cons_of_mem _ hm))
        intro i hi
        rw [List.mem_append] at hi
        rcases hi with hi | hi
        · exact hv i hi
        · simp only [List.mem_singleton] at hi
          subst hi
          exact hn n (List.mem_cons_self _ _)
      · rw [if_neg h2]
        exact bfsVisit_lt regs regionNumber rest visited queue hv
          (fun m hm => hn m (List.mem_cons_of_mem _ hm))

theorem length_le_of_nodup_lt {l : List Nat} {n : Nat} (hnd : l.Nodup)
    (hlt : ∀ i ∈ l, i < n) : l.length ≤ n := by
  have hsub : l.toFinset ⊆ Finset.range n := by
    intro x hx
    exact Finset.mem_range.mpr (hlt x (List.mem_toFinset.mp hx))
  have hcard := Finset.card_le_card hsub
  rwa [List.toFinset_card_of_nodup hnd, Finset.card_range] at hcard

theorem cellIndex_lt {p : Pos} (h1 : p.row < gridSize) (h2 : p.col < gridSize) :
    cellIndex p < gridSize * gridSize := by
  unfold cellIndex
  calc p.row * gridSize + p.col < p.row * gridSize + gridSize := by omega
  _ = (p.row + 1) * gridSize := by ring
  _ ≤ gridSize * gridSize := Nat.mul_le_mul_right _ (by omega)

theorem initQueues_len (sol : List Pos) : ∀ q ∈ initQueues sol, q.length ≤ 1 := by
  intro q hq
  unfold initQueues at hq
  rw [List.mem_map] at hq
  obtain ⟨i, _, hi⟩ := hq
  rw [← hi]
  cases sol[i]? with
  | none => simp
  | some bean => simp

theorem regionTurn_queue_len {r : RandState} {regs : List Int} {queue : List Pos}
    {idx : Nat} (h : queue.length ≤ 1) :
    (regionTurn r regs queue idx).queue.length ≤ 1 := by
  match queue, h with
  | [], _ => simp [regionTurn]
  | [current], _ =>
    rw [regionTurn]
    cases hcl : claimFirst regs (shuffleArray r (neighborCands current)).1 with
    | none => simp [hcl]
    | some p => simp [hcl]

theorem regionTurn_unclaimed {r : RandState} {regs : List Int} {queue : List Pos}
    {idx : Nat} (h : queue.length ≤ 1)
    (hcl : (regionTurn r regs queue idx).claimed = false) :
    (regionTurn r regs queue idx).queue = [] ∧ (regionTurn r regs queue idx).regs = regs := by
  match queue, h with
  | [], _ => rw [regionTurn]; exact ⟨rfl, rfl⟩
  | [current], _ =>
    rw [regionTurn] at hcl ⊢
    cases hc : claimFirst regs (shuffleArray r (neighborCands current)).1 with
    | none => simp [hc]
    | some p => rw [hc] at hcl; cases hcl

theorem roundGo_queues_len : ∀ (qs : List (List Pos)) (r : RandState) (regs : List Int)
    (idx : Nat) (un : Nat) (added : Bool), (∀ q ∈ qs, q.length ≤ 1) →
    ∀ q ∈ (roundGo r regs idx qs un added).queues, q.length ≤ 1
  | [], r, regs, idx, un, added, _ => by
    rw [roundGo]
    intro q hq
    simp at hq
  | q0 :: qs, r, regs, idx, un, added, h => by
    rw [roundGo]
    intro q hq
    simp only [List.mem_cons] at hq
    rcases hq with hq | hq
    · rw [hq]
      exact regionTurn_queue_len (h q0 (List.mem_cons_self _ _))
    · exact roundGo_queues_len qs _ _ _ _ _
        (fun q2 hq2 => h q2 (List.mem_cons_of_mem _ hq2)) q hq

theorem roundGo_added_mono : ∀ (qs : List (List Pos)) (r : RandState) (regs : List Int)
    (idx : Nat) (un : Nat) (added : Bool),
    (roundGo r regs idx qs un added).added = false → added = false
  | [], r, regs, idx, un, added => by
    rw [roundGo]
    exact fun h => h
  | q0 :: qs, r, regs, idx, un, added => by
    rw [roundGo]
    intro h
    have := roundGo_added_mono qs _ _ _ _ _ h
    exact (Bool.or_eq_false_iff.mp this).1

theorem roundGo_stall : ∀ (qs : List (List Pos)) (r : RandState) (regs : List Int)
    (idx : Nat) (un : Nat) (added : Bool), (∀ q ∈ qs, q.length ≤ 1) →
    (roundGo r regs idx qs un added).added = false →
    (∀ q ∈ (roundGo r regs idx qs un added).queues, q = []) ∧
      (roundGo r regs idx qs un added).un = un
  | [], r, regs, idx, un, added, _, _ => by
    rw [roundGo]
    refine ⟨fun q hq => ?_, rfl⟩
    simp at hq
  | q0 :: qs, r, regs, idx, un, added, h, hstall => by
    rw [roundGo] at hstall ⊢
    have hmono := roundGo_added_mono qs _ _ _ _ _ hstall
    have hcl : (regionTurn r regs q0 idx).claimed = false :=
      (Bool.or_eq_false_iff.mp hmono).2
    obtain ⟨hq0, _⟩ := regionTurn_unclaimed (h q0 (List.mem_cons_self _ _)) hcl
    simp only [hcl, Bool.false_eq_true, if_false, Bool.or_false] at hstall ⊢
    have ih := roundGo_stall qs (regionTurn r regs q0 idx).rand
      (regionTurn r regs q0 idx).regs (idx + 1) un added
      (fun q2 hq2 => h q2 (List.mem_cons_of_mem _ hq2)) hstall
    refine ⟨fun q hq => ?_, ih.2⟩
    simp only [List.mem_cons] at hq
    rcases hq with hq | hq
    · rw [hq, hq0]
    · exact ih.1 q hq

/-- **C7.** The stall-recovery fill of `generateRegionsFromSolution` executes
only in states in which every region's frontier queue is exhausted while
unclaimed cells remain: (1) in the initial state every queue holds at most
one cell; (2) every growth round keeps all queues at length at most one; (3)
when a round claims nothing (`addedThisRound = false`), all queues are empty
afterwards and the unassigned count is unchanged; and (4) the growth loop
invokes `stallFill` exactly in that situation, with unclaimed cells
remaining (`un ≠ 0`). -/
theorem stallFill_only_on_exhausted_queues :
    (∀ (sol : List Pos), ∀ q ∈ initQueues sol, q.length ≤ 1) ∧
    (∀ (qs : List (List Pos)) (r : RandState) (regs : List Int) (idx un : Nat)
      (added : Bool), (∀ q ∈ qs, q.length ≤ 1) →
      ∀ q ∈ (roundGo r regs idx qs un added).queues, q.length ≤ 1) ∧
    (∀ (qs : List (List Pos)) (r : RandState) (regs : List Int) (idx un : Nat)
      (added : Bool), (∀ q ∈ qs, q.length ≤ 1) →
      (roundGo r regs idx qs un added).added = false →
      (∀ q ∈ (roundGo r regs idx qs un added).queues, q = []) ∧
        (roundGo r regs idx qs un added).un = un) ∧
    (∀ (r : RandState) (regs : List Int) (queues : List (List Pos)) (un fuel : Nat),
      un ≠ 0 → (roundGo r regs 0 queues un false).added = false →
      growLoopGo r regs queues un (fuel + 1) =
        (stallFill (roundGo r regs 0 queues un false).regs
          (List.range (gridSize * gridSize)),
         (roundGo r regs 0 queues un false).rand)) := by
  refine ⟨initQueues_len, roundGo_queues_len, roundGo_stall, ?_⟩
  intro r regs queues un fuel hun hstall
  rw [growLoopGo, if_neg hun]
  simp only [hstall, Bool.false_eq_true, if_false]

set_option maxRecDepth 10000 in
unseal shuffleArray shuffleGo in
/-- Witness for C7 at a concrete stalled state: the round claims nothing,
every queue comes out empty, the unassigned count is untouched, and the loop
hands the board to `stallFill`. -/
theorem stallFill_only_on_exhausted_queues_witness :
    ((∀ q ∈ c7Queues, q.length ≤ 1) ∧
      (roundGo c7Rand c7Regs 0 c7Queues 5 false).added = false) ∧
    ((∀ q ∈ (roundGo c7Rand c7Regs 0 c7Queues 5 false).queues, q = []) ∧
      (roundGo c7Rand c7Regs 0 c7Queues 5 false).un = 5) ∧
    growLoopGo c7Rand c7Regs c7Queues 5 (2 + 1) =
      (stallFill (roundGo c7Rand c7Regs 0 c7Queues 5 false).regs
        (List.range (gridSize * gridSize)),
       (roundGo c7Rand c7Regs 0 c7Queues 5 false).rand) :=
  ⟨⟨by decide, by decide⟩,
   stallFill_only_on_exhausted_queues.2.2.1 c7Queues c7Rand c7Regs 0 5 false
     (by decide) (by decide),
   stallFill_only_on_exhausted_queues.2.2.2 c7Rand c7Regs c7Queues 5 2
     (by decide) (by decide)⟩

/-! ## C2: the counterexample at the regeneration cap -/

theorem reach_mem_of_closed {step : Nat → Nat → Prop} {S : Nat → Prop}
    (hclosed : ∀ x y, S x → step x y → S y) {a b : Nat} (ha : S a)
    (h : Relation.ReflTransGen step a b) : S b := by
  induction h with
  | refl => exact ha
  | tail _ h2 ih => exact hclosed _ _ ih h2

theorem not_reachable_of_separator {step : Nat → Nat → Prop} {S : Nat → Prop}
    (hclosed : ∀ x y, S x → step x y → S y) {a b : Nat} (ha : S a) (hb : ¬S b) :
    ¬Relation.ReflTransGen step a b :=
  fun h => hb (reach_mem_of_closed hclosed ha h)

set_option maxRecDepth 10000 in
unseal shuffleArray shuffleGo in
theorem c2_run_eq :
    (generateRegionsFromSolution c2Rand generateFallbackSolution
      (List.replicate (gridSize * gridSize) (-1)) 9).1 = c2Map := by
  decide

theorem c2Map_not_connected : ¬regionConnectedSpec c2Map 3 := by
  intro hspec
  have hreach : Relation.ReflTransGen (regionStep c2Map 3) 47 24 :=
    hspec 47 24 (by decide) (by decide) (by decide) (by decide)
  have hclosed : ∀ x y, x ∈ ([47] : List Nat) → regionStep c2Map 3 x y →
      y ∈ ([47] : List Nat) := by
    intro x y hx hstep
    have hy : y < gridSize * gridSize := hstep.1
    have hall : ∀ x2 ∈ ([47] : List Nat), ∀ y2 ∈ List.range (gridSize * gridSize),
        regionStep c2Map 3 x2 y2 → y2 ∈ ([47] : List Nat) := by decide
    exact hall x hx y (List.mem_range.mpr hy) hstep
  exact not_reachable_of_separator hclosed (by decide) (by decide) hreach

/-- **C2, counterexample.** A run of `generateRegionsFromSolution` that
exhausts the regeneration cap (every random draw equal to 4, entered at
recursion depth 9) returns a region map in which the cell set of region 3 is
not 4-connected: cell 47 is an island separated from the rest of region 3. -/
theorem generateRegionsFromSolution_connectivity_counterexample :
    ¬regionConnectedSpec
      ((generateRegionsFromSolution c2Rand generateFallbackSolution
        (List.replicate (gridSize * gridSize) (-1)) 9).1) 3 := by
  rw [c2_run_eq]
  exact c2Map_not_connected

/-! ## C2: every run labels all cells and keeps one bean per region -/

theorem regAt_set_self {regs : List Int} {i : Nat} {v : Int} (h : i < regs.length) :
    regAt (regs.set i v) i = v := by
  unfold regAt
  rw [List.getD_eq_getElem?_getD, List.getElem?_set_eq h]
  rfl

theorem regAt_set_ne {regs : List Int} {i j : Nat} {v : Int} (h : i ≠ j) :
    regAt (regs.set i v) j = regAt regs j := by
  unfold regAt
  rw [List.getD_eq_getElem?_getD, List.getD_eq_getElem?_getD, List.getElem?_set_ne h]

theorem regAt_eq_getElem {regs : List Int} {i : Nat} (h : i < regs.length) :
    regAt regs i = regs[i] := by
  unfold regAt
  rw [List.getD_eq_getElem?_getD, List.getElem?_eq_getElem h]
  rfl

theorem seedRegions_length : ∀ (sol : List Pos) (regs : List Int) (k : Nat),
    (seedRegions regs sol k).length = regs.length
  | [], regs, k => by rw [seedRegions]
  | b :: rest, regs, k => by
    rw [seedRegions, seedRegions_length rest _ _, List.length_set]

theorem seedRegions_untouched : ∀ (sol : List Pos) (regs : List Int) (k i : Nat),
    (∀ b ∈ sol, cellIndex b ≠ i) → regAt (seedRegions regs sol k) i = regAt regs i
  | [], regs, k, i, _ => by rw [seedRegions]
  | b :: rest, regs, k, i, h => by
    rw [seedRegions,
      seedRegions_untouched rest _ _ i (fun b2 hb2 => h b2 (List.mem_cons_of_mem _ hb2)),
      regAt_set_ne (h b (List.mem_cons_self _ _))]

theorem seedRegions_beans : ∀ (sol : List Pos) (regs : List Int) (k : Nat),
    sol.Pairwise (fun p q => cellIndex p ≠ cellIndex q) →
    (∀ b ∈ sol, cellIndex b < regs.length) →
    ∀ (j : Nat) (b : Pos), sol[j]? = some b →
      regAt (seedRegions regs sol k) (cellIndex b) = ((k + j : Nat) : Int)
  | [], _, _, _, _, j, b, h => by simp at h
  | b0 :: rest, regs, k, hpw, hlt, j, b, hj => by
    rw [seedRegions]
    match j, hj with
    | 0, hj =>
      have hb : b0 = b := by simpa using hj
      subst hb
      rw [seedRegions_untouched rest _ _ _
        (fun b2 hb2 hEq => (List.pairwise_cons.mp hpw).1 b2 hb2 hEq.symm)]
      rw [regAt_set_self (hlt b0 (List.mem_cons_self _ _))]
      simp
    | j + 1, hj =>
      have hj2 : rest[j]? = some b := by simpa using hj
      rw [seedRegions_beans rest (regs.set (cellIndex b0) (k : Int)) (k + 1)
        (List.pairwise_cons.mp hpw).2
        (fun b2 hb2 => by
          rw [List.length_set]
          exact hlt b2 (List.mem_cons_of_mem _ hb2)) j b hj2]
      congr 1
      omega

theorem seedRegions_count : ∀ (sol : List Pos) (regs : List Int) (k : Nat),
    sol.Pairwise (fun p q => cellIndex p ≠ cellIndex q) →
    (∀ b ∈ sol, cellIndex b < regs.length ∧ regAt regs (cellIndex b) = -1) →
    unassignedCells (seedRegions regs sol k) + sol.length = unassignedCells regs
  | [], regs, k, _, _ => by rw [seedRegions]; simp
  | b0 :: rest, regs, k, hpw, h => by
    rw [seedRegions]
    obtain ⟨hlt, hm1⟩ := h b0 (List.mem_cons_self _ _)
    have hrec := seedRegions_count rest (regs.set (cellIndex b0) (k : Int)) (k + 1)
      (List.pairwise_cons.mp hpw).2
      (fun b2 hb2 => by
        obtain ⟨hlt2, hm2⟩ := h b2 (List.mem_cons_of_mem _ hb2)
        refine ⟨by rw [List.length_set]; exact hlt2, ?_⟩
        rw [regAt_set_ne ((List.pairwise_cons.mp hpw).1 b2 hb2)]
        exact hm2)
    have hset : unassignedCells (regs.set (cellIndex b0) (k : Int)) + 1 =
        unassignedCells regs := by
      unfold unassignedCells
      rw [List.countP_set _ _ _ _ hlt]
      have hv : regs[cellIndex b0] = -1 := by
        rw [← regAt_eq_getElem hlt]
        exact hm1
      have hpos : 0 < regs.countP fun v => decide (v = -1) :=
        List.countP_pos_iff.mpr ⟨-1, by rw [← hv]; exact List.getElem_mem _, by simp⟩
      have hk : ((k : Int) = -1) = False := by
        simp only [eq_iff_iff, iff_false]
        omega
      rw [hv]
      simp only [decide_eq_true_eq, hk, if_false, eq_self_iff_true, if_true]
      omega
    simp only [List.length_cons]
    omega

theorem solWF_cells_distinct {sol : List Pos} (hw : solWellFormed sol) :
    sol.Pairwise fun p q => cellIndex p ≠ cellIndex q := by
  obtain ⟨_, hb, hrows⟩ := hw
  refine List.Pairwise.imp_of_mem ?_ hrows
  intro a b ha hb2 hne hEq
  have hac := (hb a ha).2
  have hbc := (hb b hb2).2
  unfold cellIndex gridSize at hEq
  unfold gridSize at hac hbc
  exact hne (by omega)

theorem regAt_replicate_neg {i : Nat} (hi : i < gridSize * gridSize) :
    regAt (List.replicate (gridSize * gridSize) (-1 : Int)) i = -1 := by
  unfold regAt
  rw [List.getD_eq_getElem?_getD, List.getElem?_replicate, if_pos hi]
  rfl

theorem seed_regsWF {sol : List Pos} (hw : solWellFormed sol) :
    regsWF sol (seedRegions (List.replicate (gridSize * gridSize) (-1)) sol 0) ∧
      unassignedCells (seedRegions (List.replicate (gridSize * gridSize) (-1)) sol 0) =
        gridSize * gridSize - gridSize := by
  obtain ⟨hlen, hbounds, hrows⟩ := hw
  have hdist := solWF_cells_distinct ⟨hlen, hbounds, hrows⟩
  have hcelllt : ∀ b ∈ sol,
      cellIndex b < (List.replicate (gridSize * gridSize) (-1 : Int)).length := by
    intro b hb
    rw [List.length_replicate]
    exact cellIndex_lt (hbounds b hb).1 (hbounds b hb).2
  constructor
  · refine ⟨?_, ?_, ?_⟩
    · rw [seedRegions_length, List.length_replicate]
    · intro i hi
      by_cases hex : ∃ b ∈ sol, cellIndex b = i
      · obtain ⟨b, hb, hbi⟩ := hex
        obtain ⟨j, hj⟩ := List.mem_iff_getElem?.mp hb
        right
        rw [← hbi, seedRegions_beans sol _ 0 hdist hcelllt j b hj]
        have hjlt : j < sol.length := (List.getElem?_eq_some_iff.mp hj).1
        rw [hlen] at hjlt
        constructor
        · exact Int.natCast_nonneg _
        · have hval : ((0 + j : Nat) : Int) = (j : Int) := by simp
          rw [hval]
          exact_mod_cast hjlt
      · left
        rw [seedRegions_untouched sol _ 0 i (fun b hb hEq => hex ⟨b, hb, hEq⟩)]
        exact regAt_replicate_neg hi
    · intro k b hk
      rw [seedRegions_beans sol _ 0 hdist hcelllt k b hk]
      simp
  · have hcount := seedRegions_count sol _ 0 hdist (fun b hb =>
      ⟨hcelllt b hb, regAt_replicate_neg (by
        have := hcelllt b hb
        rwa [List.length_replicate] at this)⟩)
    have hrep : unassignedCells (List.replicate (gridSize * gridSize) (-1 : Int)) =
        gridSize * gridSize := by
      unfold unassignedCells
      have hall : ∀ a ∈ List.replicate (gridSize * gridSize) (-1 : Int),
          (fun v => decide (v = -1)) a = true := by
        intro a ha
        rw [List.eq_of_mem_replicate ha]
        simp
      rw [List.countP_eq_length.mpr hall, List.length_replicate]
    rw [hrep, hlen] at hcount
    omega

theorem claimFirst_spec {regs : List Int} : ∀ (cands : List (Int × Int)) (p : Pos),
    claimFirst regs cands = some p →
    regAt regs (cellIndex p) = -1 ∧ p.row < gridSize ∧ p.col < gridSize
  | [], p, h => by rw [claimFirst] at h; cases h
  | rc :: rest, p, h => by
    rw [claimFirst] at h
    by_cases hb : inBounds rc = true
    · rw [if_pos hb] at h
      by_cases hm : regAt regs (rc.1.toNat * gridSize + rc.2.toNat) = -1
      · rw [if_pos hm] at h
        cases h
        unfold inBounds at hb
        simp only [Bool.and_eq_true, decide_eq_true_eq] at hb
        unfold gridSize at hb
        refine ⟨hm, ?_, ?_⟩
        · show rc.1.toNat < gridSize
          unfold gridSize
          omega
        · show rc.2.toNat < gridSize
          unfold gridSize
          omega
      · rw [if_neg hm] at h
        exact claimFirst_spec rest p h
    · rw [if_neg hb] at h
      exact claimFirst_spec rest p h

theorem regionTurn_cases (r : RandState) (regs : List Int) (queue : List Pos) (idx : Nat) :
    ((regionTurn r regs queue idx).regs = regs ∧
      (regionTurn r regs queue idx).claimed = false) ∨
    (∃ p : Pos, regAt regs (cellIndex p) = -1 ∧ p.row < gridSize ∧ p.col < gridSize ∧
      (regionTurn r regs queue idx).regs = regs.set (cellIndex p) (idx : Int) ∧
      (regionTurn r regs queue idx).claimed = true) := by
  match queue with
  | [] =>
    left
    rw [regionTurn]
    exact ⟨rfl, rfl⟩
  | current :: rest =>
    rw [regionTurn]
    cases hc : claimFirst regs (shuffleArray r (neighborCands current)).1 with
    | none =>
      left
      exact ⟨rfl, rfl⟩
    | some p =>
      right
      obtain ⟨h1, h2, h3⟩ := claimFirst_spec _ p hc
      exact ⟨p, h1, h2, h3, rfl, rfl⟩

theorem regsWF_set {sol : List Pos} {regs : List Int} (hinv : regsWF sol regs) {p : Pos}
    (hp1 : regAt regs (cellIndex p) = -1) (hp2 : p.row < gridSize)
    (hp3 : p.col < gridSize) {idx : Nat} (hidx : idx < gridSize) :
    regsWF sol (regs.set (cellIndex p) (idx : Int)) ∧
      unassignedCells (regs.set (cellIndex p) (idx : Int)) + 1 = unassignedCells regs := by
  obtain ⟨hlen, hvals, hbeans⟩ := hinv
  have hci : cellIndex p < regs.length := by
    rw [hlen]
    exact cellIndex_lt hp2 hp3
  refine ⟨⟨by rw [List.length_set]; exact hlen, ?_, ?_⟩, ?_⟩
  · intro i hi
    by_cases hEq : cellIndex p = i
    · subst hEq
      right
      rw [regAt_set_self hci]
      exact ⟨Int.natCast_nonneg _, by exact_mod_cast hidx⟩
    · rw [regAt_set_ne hEq]
      exact hvals i hi
  · intro k b hk
    have hbk := hbeans k b hk
    have hne : cellIndex p ≠ cellIndex b := by
      intro hEq
      rw [hEq, hbk] at hp1
      omega
    rw [regAt_set_ne hne]
    exact hbk
  · unfold unassignedCells
    rw [List.countP_set _ _ _ _ hci]
    have hv : regs[cellIndex p] = -1 := by
      rw [← regAt_eq_getElem hci]
      exact hp1
    have hpos : 0 < regs.countP fun v => decide (v = -1) :=
      List.countP_pos_iff.mpr ⟨-1, by rw [← hv]; exact List.getElem_mem _, by simp⟩
    have hk2 : ((idx : Int) = -1) = False := by
      simp only [eq_iff_iff, iff_false]
      omega
    rw [hv]
    simp only [decide_eq_true_eq, hk2, if_false, eq_self_iff_true, if_true]
    omega

theorem roundGo_inv {sol : List Pos} : ∀ (qs : List (List Pos)) (r : RandState)
    (regs : List Int) (idx un : Nat) (added : Bool),
    regsWF sol regs → un = unassignedCells regs → idx + qs.length ≤ gridSize →
    regsWF sol (roundGo r regs idx qs un added).regs ∧
      (roundGo r regs idx qs un added).un =
        unassignedCells (roundGo r regs idx qs un added).regs ∧
      (roundGo r regs idx qs un added).queues.length = qs.length
  | [], r, regs, idx, un, added, hwf, hun, _ => by
    rw [roundGo]
    exact ⟨hwf, hun, rfl⟩
  | q0 :: qs, r, regs, idx, un, added, hwf, hun, hidx => by
    rw [roundGo]
    simp only [List.length_cons] at hidx ⊢
    rcases regionTurn_cases r regs q0 idx with ⟨heq, hcl⟩ | ⟨p, hp1, hp2, hp3, heq, hcl⟩
    · simp only [hcl, Bool.false_eq_true, if_false, Bool.or_false, heq]
      have ih := roundGo_inv qs (regionTurn r regs q0 idx).rand regs (idx + 1) un added
        hwf hun (by omega)
      exact ⟨ih.1, ih.2.1, by rw [ih.2.2]⟩
    · simp only [hcl, if_true, Bool.or_true, heq]
      have hidxlt : idx < gridSize := by omega
      obtain ⟨hwf2, hcount⟩ := regsWF_set hwf hp1 hp2 hp3 hidxlt
      have ih := roundGo_inv qs (regionTurn r regs q0 idx).rand
        (regs.set (cellIndex p) (idx : Int)) (idx + 1) (un - 1) true
        hwf2 (by omega) (by omega)
      exact ⟨ih.1, ih.2.1, by rw [ih.2.2]⟩

theorem findClosestRegion_range {sol : List Pos} {regs : List Int}
    (hinv : regsWF sol regs) (c : Nat) :
    0 ≤ findClosestRegion regs c ∧ findClosestRegion regs c < (gridSize : Int) := by
  unfold findClosestRegion
  cases hf : (List.range' 1 (gridSize - 1)).findSome?
      (fun d => scanSquare regs (c / gridSize) (c % gridSize) d) with
  | none =>
    simp only [Option.getD_none]
    decide
  | some v =>
    simp only [Option.getD_some]
    obtain ⟨d, _, hscan⟩ := List.exists_of_findSome?_eq_some hf
    unfold scanSquare at hscan
    obtain ⟨dr, _, h2⟩ := List.exists_of_findSome?_eq_some hscan
    obtain ⟨dc, _, h3⟩ := List.exists_of_findSome?_eq_some h2
    simp only at h3
    split at h3
    · split at h3
      · rename_i hbnd hne
        have hveq := Option.some.inj h3
        rw [← hveq]
        unfold inBounds at hbnd
        simp only [Bool.and_eq_true, decide_eq_true_eq] at hbnd
        have hidx : (((c / gridSize : Nat) : Int) + dr).toNat * gridSize +
            (((c % gridSize : Nat) : Int) + dc).toNat < gridSize * gridSize := by
          unfold gridSize at hbnd ⊢
          omega
        rcases hinv.2.1 _ hidx with hm | hr
        · exact absurd hm hne
        · exact hr
      · cases h3
    · cases h3

theorem stallFill_inv {sol : List Pos} : ∀ (is : List Nat) (regs : List Int),
    regsWF sol regs → (∀ i ∈ is, i < gridSize * gridSize) →
    regsWF sol (stallFill regs is) ∧
      (∀ i, regAt regs i ≠ -1 → regAt (stallFill regs is) i = regAt regs i) ∧
      (∀ i ∈ is, regAt (stallFill regs is) i ≠ -1)
  | [], regs, hwf, _ => by
    rw [stallFill]
    exact ⟨hwf, fun i _ => rfl, fun i hi => absurd hi (by simp)⟩
  | i0 :: rest, regs, hwf, hbnd => by
    rw [stallFill]
    have hi0 : i0 < gridSize * gridSize := hbnd i0 (List.mem_cons_self _ _)
    by_cases h0 : regAt regs i0 = -1
    · rw [if_pos h0]
      have hvr := findClosestRegion_range hwf i0
      have hi0len : i0 < regs.length := by rw [hwf.1]; exact hi0
      have hwf2 : regsWF sol (regs.set i0 (findClosestRegion regs i0)) := by
        obtain ⟨hlen, hvals, hbeans⟩ := hwf
        refine ⟨by rw [List.length_set]; exact hlen, ?_, ?_⟩
        · intro i hi
          by_cases hEq : i0 = i
          · subst hEq
            right
            rw [regAt_set_self hi0len]
            exact hvr
          · rw [regAt_set_ne hEq]
            exact hvals i hi
        · intro k b hk
          have hbk := hbeans k b hk
          have hne : i0 ≠ cellIndex b := by
            intro hEq
            rw [hEq] at h0
            rw [hbk] at h0
            omega
          rw [regAt_set_ne hne]
          exact hbk
      have ih := stallFill_inv rest (regs.set i0 (findClosestRegion regs i0)) hwf2
        (fun i hi => hbnd i (List.mem_cons_of_mem _ hi))
      have hsetv : regAt (regs.set i0 (findClosestRegion regs i0)) i0 =
          findClosestRegion regs i0 := regAt_set_self hi0len
      refine ⟨ih.1, ?_, ?_⟩
      · intro i hi
        have hne2 : i0 ≠ i := fun hEq => hi (hEq ▸ h0)
        rw [ih.2.1 i (by rw [regAt_set_ne hne2]; exact hi), regAt_set_ne hne2]
      · intro i hi
        rcases List.mem_cons.mp hi with hEq | hmem
        · subst hEq
          rw [ih.2.1 i (by rw [hsetv]; omega), hsetv]
          omega
        · exact ih.2.2 i hmem
    · rw [if_neg h0]
      have ih := stallFill_inv rest regs hwf (fun i hi => hbnd i (List.mem_cons_of_mem _ hi))
      refine ⟨ih.1, ih.2.1, ?_⟩
      intro i hi
      rcases List.mem_cons.mp hi with hEq | hmem
      · subst hEq
        rw [ih.2.1 i h0]
        exact h0
      · exact ih.2.2 i hmem

theorem regionsComplete_of_noneg {sol : List Pos} {regs : List Int} (hwf : regsWF sol regs)
    (hno : ∀ i < gridSize * gridSize, regAt regs i ≠ -1) : regionsComplete sol regs :=
  ⟨hwf.1, fun i hi => (hwf.2.1 i hi).resolve_left (hno i hi), hwf.2.2⟩

theorem noneg_of_count_zero {regs : List Int} (hlen : regs.length = gridSize * gridSize)
    (hcount : unassignedCells regs = 0) : ∀ i < gridSize * gridSize, regAt regs i ≠ -1 := by
  intro i hi
  have hilen : i < regs.length := by rw [hlen]; exact hi
  have hmem : regs[i] ∈ regs := List.getElem_mem _
  have hall := List.countP_eq_zero.mp hcount
  rw [regAt_eq_getElem hilen]
  intro hEq
  exact hall _ hmem (by simp [hEq])

theorem growLoopGo_complete {sol : List Pos} : ∀ (fuel : Nat) (r : RandState)
    (regs : List Int) (queues : List (List Pos)) (un : Nat),
    regsWF sol regs → un = unassignedCells regs → un ≤ fuel →
    queues.length ≤ gridSize →
    regionsComplete sol (growLoopGo r regs queues un fuel).1
  | 0, r, regs, queues, un, hwf, hun, hfuel, _ => by
    rw [growLoopGo]
    show regionsComplete sol regs
    have hz : un = 0 := Nat.le_zero.mp hfuel
    exact regionsComplete_of_noneg hwf (noneg_of_count_zero hwf.1 (by omega))
  | fuel + 1, r, regs, queues, un, hwf, hun, hfuel, hql => by
    rw [growLoopGo]
    by_cases hz : un = 0
    · rw [if_pos hz]
      show regionsComplete sol regs
      exact regionsComplete_of_noneg hwf (noneg_of_count_zero hwf.1 (by omega))
    · rw [if_neg hz]
      have hround := roundGo_inv queues r regs 0 un false hwf hun (by omega)
      by_cases hadd : (roundGo r regs 0 queues un false).added = true
      · simp only [hadd, if_true]
        have hlt : (roundGo r regs 0 queues un false).un < un := by
          rcases (roundGo_un_le queues r regs 0 un false).2 hadd with h | h | h
          · cases h
          · exact h
          · exact absurd h hz
        exact growLoopGo_complete fuel _ _ _ _ hround.1 hround.2.1 (by omega)
          (by rw [hround.2.2]; exact hql)
      · simp only [Bool.not_eq_true] at hadd
        simp only [hadd, Bool.false_eq_true, if_false]
        have hsf := @stallFill_inv sol (List.range (gridSize * gridSize))
          (roundGo r regs 0 queues un false).regs hround.1
          (fun i hi => List.mem_range.mp hi)
        exact regionsComplete_of_noneg hsf.1
          (fun i hi => hsf.2.2 i (List.mem_range.mpr hi))

theorem buildRegions_complete {sol : List Pos} (hw : solWellFormed sol) (r : RandState) :
    regionsComplete sol (buildRegions r sol).1 := by
  obtain ⟨hwf, hcount⟩ := seed_regsWF hw
  unfold buildRegions growLoop
  exact growLoopGo_complete _ _ _ _ _ hwf hcount.symm (Nat.le_refl _)
    (by unfold initQueues; rw [List.length_map, List.length_range])

theorem generateRegionsFromSolutionGo_complete {sol : List Pos} (hw : solWellFormed sol) :
    ∀ (rem : Nat) (r : RandState) (current : List Int), 1 ≤ rem →
    regionsComplete sol (generateRegionsFromSolutionGo sol rem r current).1
  | 0, r, current, h => absurd h (by omega)
  | rem + 1, r, current, _ => by
    rw [generateRegionsFromSolutionGo]
    by_cases hacc : (List.range gridSize).all
        (fun rg => isRegionConnected (buildRegions r sol).1 (rg : Int)) = true
    · rw [if_pos hacc]
      exact buildRegions_complete hw r
    · rw [if_neg hacc]
      match rem with
      | 0 =>
        rw [generateRegionsFromSolutionGo]
        exact buildRegions_complete hw r
      | rem2 + 1 =>
        exact generateRegionsFromSolutionGo_complete hw (rem2 + 1) _ _ (by omega)

theorem filter_label_unique : ∀ (sol : List Pos) (label : Pos → Int) (ofs : Nat),
    (∀ (j : Nat) (b : Pos), sol[j]? = some b → label b = ((ofs + j : Nat) : Int)) →
    ∀ k : Nat, ofs ≤ k → k < ofs + sol.length →
      (sol.filter fun b => decide (label b = (k : Int))).length = 1
  | [], _, ofs, _, k, h1, h2 => by
    simp only [List.length_nil] at h2
    omega
  | b0 :: rest, label, ofs, hl, k, h1, h2 => by
    have hb0 : label b0 = (ofs : Int) := by simpa using hl 0 b0 (by simp)
    rw [List.filter_cons]
    by_cases hk : k = ofs
    · subst hk
      rw [if_pos (by simp [hb0])]
      have hrest : (rest.filter fun b => decide (label b = (k : Int))).length = 0 := by
        rw [List.length_eq_zero, List.filter_eq_nil_iff]
        intro b hb
        obtain ⟨j, hj⟩ := List.mem_iff_getElem?.mp hb
        have hlb := hl (j + 1) b (by simpa using hj)
        simp only [hlb, decide_eq_true_eq]
        intro hEq
        have : (k : Int) + 1 + (j : Int) = (k : Int) := by push_cast at hEq ⊢; omega
        omega
      simp only [List.length_cons, hrest]
    · rw [if_neg (by
        simp only [hb0, decide_eq_true_eq]
        intro hEq
        exact hk (by exact_mod_cast hEq.symm))]
      exact filter_label_unique rest label (ofs + 1)
        (fun j b hj => by
          have := hl (j + 1) b (by simpa using hj)
          rw [this]
          congr 1
          omega) k (by omega) (by
          simp only [List.length_cons] at h2
          omega)

/-- **C2 (amended).** For every run of `generateRegionsFromSolution` on a
well-formed solution (any random choices): all 64 cells are labeled with a
region id in `[0, gridSize)`, every id in `[0, gridSize)` occurs, and each
region contains exactly one position of the solution array.  (The claim's
third conjunct — that every region's cell set is 4-connected — fails for
runs that exhaust the 10-attempt regeneration cap; see the counterexample
`generateRegionsFromSolution_connectivity_counterexample`.) -/
theorem generateRegionsFromSolution_partition (r : RandState) (sol : List Pos)
    (current : List Int) (hw : solWellFormed sol) :
    (generateRegionsFromSolution r sol current 0).1.length = gridSize * gridSize ∧
      (∀ i < gridSize * gridSize,
        0 ≤ regAt (generateRegionsFromSolution r sol current 0).1 i ∧
          regAt (generateRegionsFromSolution r sol current 0).1 i < (gridSize : Int)) ∧
      (∀ k < gridSize, ∃ i < gridSize * gridSize,
        regAt (generateRegionsFromSolution r sol current 0).1 i = (k : Int)) ∧
      (∀ k < gridSize, (sol.filter fun b =>
        decide (regAt (generateRegionsFromSolution r sol current 0).1 (cellIndex b) =
          (k : Int))).length = 1) := by
  have hcomp : regionsComplete sol (generateRegionsFromSolution r sol current 0).1 := by
    unfold generateRegionsFromSolution
    exact generateRegionsFromSolutionGo_complete hw _ _ _ (by decide)
  obtain ⟨hlen, hvals, hbeans⟩ := hcomp
  refine ⟨hlen, hvals, ?_, ?_⟩
  · intro k hk
    have hklen : k < sol.length := by rw [hw.1]; exact hk
    have hget : sol[k]? = some sol[k] := List.getElem?_eq_getElem hklen
    have hmem : sol[k] ∈ sol := List.getElem_mem _
    refine ⟨cellIndex sol[k], ?_, hbeans k _ hget⟩
    exact cellIndex_lt (hw.2.1 _ hmem).1 (hw.2.1 _ hmem).2
  · intro k hk
    refine filter_label_unique sol _ 0 (fun j b hj => by simpa using hbeans j b hj) k
      (by omega) ?_
    rw [hw.1]
    omega

/-- Witness for the amended C2 at the fallback solution. -/
theorem generateRegionsFromSolution_partition_witness :
    solWellFormed generateFallbackSolution ∧
      (∀ k < gridSize, (generateFallbackSolution.filter fun b =>
        decide (regAt (generateRegionsFromSolution c2Rand generateFallbackSolution
          (List.replicate (gridSize * gridSize) (-1)) 0).1 (cellIndex b) =
            (k : Int))).length = 1) :=
  ⟨by decide, (generateRegionsFromSolution_partition c2Rand generateFallbackSolution
    (List.replicate (gridSize * gridSize) (-1)) (by decide)).2.2.2⟩

/-! ## C6: the flood fill decides 4-connectivity -/

theorem cellPos_cellIndex {p : Pos} (h1 : p.row < gridSize) (h2 : p.col < gridSize) :
    cellPos (cellIndex p) = p := by
  unfold cellPos cellIndex
  unfold gridSize at h1 h2 ⊢
  obtain ⟨r, c⟩ := p
  simp only [Pos.mk.injEq]
  dsimp only at h1 h2 ⊢
  omega

theorem cellIndex_cellPos {i : Nat} (h : i < gridSize * gridSize) :
    cellIndex (cellPos i) = i := by
  unfold cellPos cellIndex
  unfold gridSize at h ⊢
  dsimp only
  omega

theorem cellPos_lt {i : Nat} (h : i < gridSize * gridSize) :
    (cellPos i).row < gridSize ∧ (cellPos i).col < gridSize := by
  unfold cellPos
  unfold gridSize at h ⊢
  constructor
  · show i / 8 < 8
    omega
  · show i % 8 < 8
    omega

theorem mem_regionCellsOf {regs : List Int} {rg : Int} {i : Nat} :
    i ∈ regionCellsOf regs rg ↔ i < gridSize * gridSize ∧ regAt regs i = rg := by
  unfold regionCellsOf
  rw [List.mem_filter, List.mem_range]
  simp

theorem regionCellsOf_nodup (regs : List Int) (rg : Int) :
    (regionCellsOf regs rg).Nodup :=
  (List.nodup_range _).filter _

theorem adj4_symm {p q : Pos} (h : adj4 p q) : adj4 q p := by
  unfold adj4 at h ⊢
  rcases h with ⟨h1, h2⟩ | ⟨h1, h2⟩
  · exact Or.inl ⟨h1.symm, h2.symm⟩
  · exact Or.inr ⟨h1.symm, h2.symm⟩

theorem adj4_of_mem_neighbors4 {p n : Pos} (h : n ∈ neighbors4 p) : adj4 p n := by
  unfold neighbors4 neighborCands at h
  rw [List.mem_filterMap] at h
  obtain ⟨rc, hrc, hif⟩ := h
  by_cases hb : inBounds rc = true
  case neg =>
    rw [if_neg hb] at hif
    cases hif
  rw [if_pos hb] at hif
  injection hif with hif
  subst hif
  unfold inBounds at hb
  simp only [Bool.and_eq_true, decide_eq_true_eq] at hb
  unfold gridSize at hb
  fin_cases hrc
  · unfold adj4
    dsimp only at hb ⊢
    right
    refine ⟨?_, Or.inr ?_⟩
    · omega
    · omega
  · unfold adj4
    dsimp only at hb ⊢
    right
    refine ⟨?_, Or.inl ?_⟩
    · omega
    · omega
  · unfold adj4
    dsimp only at hb ⊢
    left
    refine ⟨?_, Or.inr ?_⟩
    · omega
    · omega
  · unfold adj4
    dsimp only at hb ⊢
    left
    refine ⟨?_, Or.inl ?_⟩
    · omega
    · omega

theorem mem_neighbors4_of_adj4 {p q : Pos} (hadj : adj4 p q) (h1 : q.row < gridSize)
    (h2 : q.col < gridSize) : q ∈ neighbors4 p := by
  unfold neighbors4 neighborCands
  rw [List.mem_filterMap]
  unfold adj4 at hadj
  unfold gridSize at h1 h2
  obtain ⟨qr, qc⟩ := q
  dsimp only at h1 h2 hadj
  rcases hadj with ⟨hr, hc | hc⟩ | ⟨hc, hr | hr⟩
  · refine ⟨((p.row : Int), (p.col : Int) + 1), by simp, ?_⟩
    rw [if_pos (by
      unfold inBounds gridSize
      simp only [Bool.and_eq_true, decide_eq_true_eq]
      omega)]
    congr 1
    simp only [Pos.mk.injEq]
    constructor <;> omega
  · refine ⟨((p.row : Int), (p.col : Int) - 1), by simp, ?_⟩
    rw [if_pos (by
      unfold inBounds gridSize
      simp only [Bool.and_eq_true, decide_eq_true_eq]
      omega)]
    congr 1
    simp only [Pos.mk.injEq]
    constructor <;> omega
  · refine ⟨((p.row : Int) + 1, (p.col : Int)), by simp, ?_⟩
    rw [if_pos (by
      unfold inBounds gridSize
      simp only [Bool.and_eq_true, decide_eq_true_eq]
      omega)]
    congr 1
    simp only [Pos.mk.injEq]
    constructor <;> omega
  · refine ⟨((p.row : Int) - 1, (p.col : Int)), by simp, ?_⟩
    rw [if_pos (by
      unfold inBounds gridSize
      simp only [Bool.and_eq_true, decide_eq_true_eq]
      omega)]
    congr 1
    simp only [Pos.mk.injEq]
    constructor <;> omega

theorem bfsVisit_spec (regs : List Int) (rg : Int) :
    ∀ (nbrs : List Pos) (visited : List Nat) (queue : List Pos),
    (∀ i ∈ visited, i ∈ (bfsVisit regs rg nbrs visited queue).1) ∧
    (∀ p ∈ queue, p ∈ (bfsVisit regs rg nbrs visited queue).2) ∧
    (∀ i ∈ (bfsVisit regs rg nbrs visited queue).1,
      i ∈ visited ∨ ∃ n ∈ nbrs, i = cellIndex n ∧ regAt regs (cellIndex n) = rg) ∧
    (∀ p ∈ (bfsVisit regs rg nbrs visited queue).2,
      p ∈ queue ∨ (p ∈ nbrs ∧ cellIndex p ∈ (bfsVisit regs rg nbrs visited queue).1 ∧
        regAt regs (cellIndex p) = rg)) ∧
    (∀ n ∈ nbrs, regAt regs (cellIndex n) = rg →
      cellIndex n ∈ (bfsVisit regs rg nbrs visited queue).1) ∧
    (∀ i ∈ (bfsVisit regs rg nbrs visited queue).1,
      i ∈ visited ∨ ∃ p ∈ (bfsVisit regs rg nbrs visited queue).2, cellIndex p = i)
  | [], visited, queue => by
    rw [bfsVisit]
    exact ⟨fun i hi => hi, fun p hp => hp, fun i hi => Or.inl hi, fun p hp => Or.inl hp,
      fun n hn => absurd hn (by simp), fun i hi => Or.inl hi⟩
  | n0 :: rest, visited, queue => by
    rw [bfsVisit]
    by_cases h1 : visited.contains (cellIndex n0)
    · rw [if_pos h1]
      have hmem : cellIndex n0 ∈ visited := by simpa using h1
      obtain ⟨i1, i2, i3, i4, i5, i6⟩ := bfsVisit_spec regs rg rest visited queue
      refine ⟨i1, i2, ?_, ?_, ?_, i6⟩
      · intro i hi
        rcases i3 i hi with h | ⟨n, hn, hEq⟩
        · exact Or.inl h
        · exact Or.inr ⟨n, List.mem_cons_of_mem _ hn, hEq⟩
      · intro p hp
        rcases i4 p hp with h | ⟨hn, hci, hr⟩
        · exact Or.inl h
        · exact Or.inr ⟨List.mem_cons_of_mem _ hn, hci, hr⟩
      · intro n hn hr
        rcases List.mem_cons.mp hn with hEq | hn2
        · subst hEq
          exact i1 _ hmem
        · exact i5 n hn2 hr
    · rw [if_neg h1]
      by_cases h2 : regAt regs (cellIndex n0) = rg
      · rw [if_pos h2]
        obtain ⟨i1, i2, i3, i4, i5, i6⟩ :=
          bfsVisit_spec regs rg rest (visited ++ [cellIndex n0]) (queue ++ [n0])
        refine ⟨?_, ?_, ?_, ?_, ?_, ?_⟩
        · intro i hi
          exact i1 i (List.mem_append_left _ hi)
        · intro p hp
          exact i2 p (List.mem_append_left _ hp)
        · intro i hi
          rcases i3 i hi with h | ⟨n, hn, hEq⟩
          · rcases List.mem_append.mp h with h | h
            · exact Or.inl h
            · simp only [List.mem_singleton] at h
              subst h
              exact Or.inr ⟨n0, List.mem_cons_self _ _, rfl, h2⟩
          · exact Or.inr ⟨n, List.mem_cons_of_mem _ hn, hEq⟩
        · intro p hp
          rcases i4 p hp with h | ⟨hn, hci, hr⟩
          · rcases List.mem_append.mp h with h | h
            · exact Or.inl h
            · simp only [List.mem_singleton] at h
              subst h
              exact Or.inr ⟨List.mem_cons_self _ _,
                i1 _ (List.mem_append_right _ (List.mem_singleton_self _)), h2⟩
          · exact Or.inr ⟨List.mem_cons_of_mem _ hn, hci, hr⟩
        · intro n hn hr
          rcases List.mem_cons.mp hn with hEq | hn2
          · subst hEq
            exact i1 _ (List.mem_append_right _ (List.mem_singleton_self _))
          · exact i5 n hn2 hr
        · intro i hi
          rcases i6 i hi with h | ⟨p, hp, hEq⟩
          · rcases List.mem_append.mp h with h | h
            · exact Or.inl h
            · simp only [List.mem_singleton] at h
              subst h
              exact Or.inr ⟨n0,
                i2 _ (List.mem_append_right _ (List.mem_singleton_self _)), rfl⟩
          · exact Or.inr ⟨p, hp, hEq⟩
      · rw [if_neg h2]
        obtain ⟨i1, i2, i3, i4, i5, i6⟩ := bfsVisit_spec regs rg rest visited queue
        refine ⟨i1, i2, ?_, ?_, ?_, i6⟩
        · intro i hi
          rcases i3 i hi with h | ⟨n, hn, hEq⟩
          · exact Or.inl h
          · exact Or.inr ⟨n, List.mem_cons_of_mem _ hn, hEq⟩
        · intro p hp
          rcases i4 p hp with h | ⟨hn, hci, hr⟩
          · exact Or.inl h
          · exact Or.inr ⟨List.mem_cons_of_mem _ hn, hci, hr⟩
        · intro n hn hr
          rcases List.mem_cons.mp hn with hEq | hn2
          · subst hEq
            exact absurd hr h2
          · exact i5 n hn2 hr

theorem bfsLoop_spec (regs : List Int) (rg : Int) (c0 : Nat) :
    ∀ (fuel : Nat) (queue : List Pos) (visited : List Nat),
    visited.Nodup →
    (∀ i ∈ visited, i < gridSize * gridSize ∧ regAt regs i = rg ∧
      Relation.ReflTransGen (regionStep regs rg) c0 i) →
    (∀ p ∈ queue, p.row < gridSize ∧ p.col < gridSize ∧ cellIndex p ∈ visited) →
    (∀ i ∈ visited, (∃ p ∈ queue, cellIndex p = i) ∨
      (∀ n ∈ neighbors4 (cellPos i), regAt regs (cellIndex n) = rg →
        cellIndex n ∈ visited)) →
    gridSize * gridSize - visited.length + queue.length ≤ fuel →
    (bfsLoop regs rg fuel queue visited).Nodup ∧
      (∀ i ∈ bfsLoop regs rg fuel queue visited, i < gridSize * gridSize ∧
        regAt regs i = rg ∧ Relation.ReflTransGen (regionStep regs rg) c0 i) ∧
      (∀ i ∈ visited, i ∈ bfsLoop regs rg fuel queue visited) ∧
      (∀ i ∈ bfsLoop regs rg fuel queue visited, ∀ n ∈ neighbors4 (cellPos i),
        regAt regs (cellIndex n) = rg → cellIndex n ∈ bfsLoop regs rg fuel queue visited)
  | 0, queue, visited => by
    intro hnd hvis hq hc hfuel
    rw [bfsLoop]
    have hq0 : queue = [] := by
      rcases queue with _ | ⟨p, rest⟩
      · rfl
      · simp only [List.length_cons] at hfuel
        omega
    subst hq0
    refine ⟨hnd, hvis, fun i hi => hi, ?_⟩
    intro i hi n hn hr
    rcases hc i hi with ⟨p, hp, _⟩ | hclosed
    · cases hp
    · exact hclosed n hn hr
  | fuel + 1, queue, visited => by
    intro hnd hvis hq hc hfuel
    match queue, hq, hc, hfuel with
    | [], _, hc, _ =>
      rw [bfsLoop]
      refine ⟨hnd, hvis, fun i hi => hi, ?_⟩
      intro i hi n hn hr
      rcases hc i hi with ⟨p, hp, _⟩ | hclosed
      · cases hp
      · exact hclosed n hn hr
    | current :: rest, hq, hc, hfuel =>
      rw [bfsLoop]
      obtain ⟨i1, i2, i3, i4, i5, i6⟩ :=
        bfsVisit_spec regs rg (neighbors4 current) visited rest
      have hcur := hq current (List.mem_cons_self _ _)
      have hcurgood := hvis _ hcur.2.2
      have hnbound : ∀ n ∈ neighbors4 current, cellIndex n < gridSize * gridSize :=
        fun n hn => cellIndex_lt (mem_neighbors4_lt hn).1 (mem_neighbors4_lt hn).2
      have hnd2 := bfsVisit_nodup regs rg (neighbors4 current) visited rest hnd
      have hlt2 := bfsVisit_lt regs rg (neighbors4 current) visited rest
        (fun i hi => (hvis i hi).1) hnbound
      have hvis2 : ∀ i ∈ (bfsVisit regs rg (neighbors4 current) visited rest).1,
          i < gridSize * gridSize ∧ regAt regs i = rg ∧
            Relation.ReflTransGen (regionStep regs rg) c0 i := by
        intro i hi
        rcases i3 i hi with h | ⟨n, hn, hEq, hr⟩
        · exact hvis i h
        · subst hEq
          refine ⟨hnbound n hn, hr, ?_⟩
          refine Relation.ReflTransGen.tail hcurgood.2.2 ?_
          refine ⟨hnbound n hn, hr, ?_⟩
          rw [cellPos_cellIndex hcur.1 hcur.2.1,
            cellPos_cellIndex (mem_neighbors4_lt hn).1 (mem_neighbors4_lt hn).2]
          exact adj4_of_mem_neighbors4 hn
      have hq2 : ∀ p ∈ (bfsVisit regs rg (neighbors4 current) visited rest).2,
          p.row < gridSize ∧ p.col < gridSize ∧
            cellIndex p ∈ (bfsVisit regs rg (neighbors4 current) visited rest).1 := by
        intro p hp
        rcases i4 p hp with h | ⟨hn, hci, _⟩
        · have := hq p (List.mem_cons_of_mem _ h)
          exact ⟨this.1, this.2.1, i1 _ this.2.2⟩
        · exact ⟨(mem_neighbors4_lt hn).1, (mem_neighbors4_lt hn).2, hci⟩
      have hc2 : ∀ i ∈ (bfsVisit regs rg (neighbors4 current) visited rest).1,
          (∃ p ∈ (bfsVisit regs rg (neighbors4 current) visited rest).2,
            cellIndex p = i) ∨
          (∀ n ∈ neighbors4 (cellPos i), regAt regs (cellIndex n) = rg →
            cellIndex n ∈ (bfsVisit regs rg (neighbors4 current) visited rest).1) := by
        intro i hi
        rcases i6 i hi with hold | hnew
        · rcases hc i hold with ⟨p, hp, hpi⟩ | hclosed
          · rcases List.mem_cons.mp hp with hEq | hp2
            · subst hEq
              right
              intro n hn hr
              rw [← hpi, cellPos_cellIndex hcur.1 hcur.2.1] at hn
              exact i5 n hn hr
            · exact Or.inl ⟨p, i2 p hp2, hpi⟩
          · right
            intro n hn hr
            exact i1 _ (hclosed n hn hr)
        · exact Or.inl hnew
      have hmeas : gridSize * gridSize -
          (bfsVisit regs rg (neighbors4 current) visited rest).1.length +
          (bfsVisit regs rg (neighbors4 current) visited rest).2.length ≤ fuel := by
        have hlen := bfsVisit_length regs rg (neighbors4 current) visited rest
        have hle := length_le_of_nodup_lt hnd2 hlt2
        simp only [List.length_cons] at hfuel
        omega
      obtain ⟨o1, o2, o3, o4⟩ := bfsLoop_spec regs rg c0 fuel
        (bfsVisit regs rg (neighbors4 current) visited rest).2
        (bfsVisit regs rg (neighbors4 current) visited rest).1
        hnd2 hvis2 hq2 hc2 hmeas
      exact ⟨o1, o2, fun i hi => o3 _ (i1 i hi), o4⟩

theorem rtg_endpoint {regs : List Int} {rg : Int} {c0 : Nat}
    (h0 : c0 < gridSize * gridSize ∧ regAt regs c0 = rg) {x : Nat}
    (h : Relation.ReflTransGen (regionStep regs rg) c0 x) :
    x < gridSize * gridSize ∧ regAt regs x = rg := by
  induction h with
  | refl => exact h0
  | tail _ hstep _ => exact ⟨hstep.1, hstep.2.1⟩

theorem rtg_symm_start {regs : List Int} {rg : Int} {c0 : Nat}
    (h0 : c0 < gridSize * gridSize ∧ regAt regs c0 = rg) {x : Nat}
    (h : Relation.ReflTransGen (regionStep regs rg) c0 x) :
    Relation.ReflTransGen (regionStep regs rg) x c0 := by
  induction h with
  | refl => exact Relation.ReflTransGen.refl
  | tail h1 hstep ih =>
    refine Relation.ReflTransGen.head ?_ ih
    have hmid := rtg_endpoint h0 h1
    exact ⟨hmid.1, hmid.2, adj4_symm hstep.2.2⟩

theorem rtg_mem_closed {regs : List Int} {rg : Int} {R : List Nat}
    (hclosed : ∀ i ∈ R, ∀ n ∈ neighbors4 (cellPos i),
      regAt regs (cellIndex n) = rg → cellIndex n ∈ R)
    {c0 x : Nat} (hc0 : c0 ∈ R)
    (h : Relation.ReflTransGen (regionStep regs rg) c0 x) : x ∈ R := by
  induction h with
  | refl => exact hc0
  | tail h1 hstep ih =>
    have hz := hstep.1
    have hn := mem_neighbors4_of_adj4 hstep.2.2 (cellPos_lt hz).1 (cellPos_lt hz).2
    have hmem := hclosed _ ih _ hn (by rw [cellIndex_cellPos hz]; exact hstep.2.1)
    rw [cellIndex_cellPos hz] at hmem
    exact hmem

theorem isRegionConnected_eq_of_cells {regs : List Int} {rg : Int} {c0 c1 : Nat}
    {cs : List Nat} (h : regionCellsOf regs rg = c0 :: c1 :: cs) :
    isRegionConnected regs rg =
      ((bfsLoop regs rg (gridSize * gridSize) [cellPos c0] [c0]).length ==
        (regionCellsOf regs rg).length) := by
  unfold isRegionConnected
  rw [h]

theorem isRegionConnected_iff (regs : List Int) (rg : Int) :
    isRegionConnected regs rg = true ↔ regionConnectedSpec regs rg := by
  cases hcells : regionCellsOf regs rg with
  | nil =>
    constructor
    · intro _ a b ha hb hra hrb
      exact absurd (hcells ▸ mem_regionCellsOf.mpr ⟨ha, hra⟩) (List.not_mem_nil a)
    · intro _
      unfold isRegionConnected
      rw [hcells]
  | cons c0 tl =>
    cases tl with
    | nil =>
      constructor
      · intro _ a b ha hb hra hrb
        have hma := hcells ▸ mem_regionCellsOf.mpr ⟨ha, hra⟩
        have hmb := hcells ▸ mem_regionCellsOf.mpr ⟨hb, hrb⟩
        simp only [List.mem_singleton] at hma hmb
        rw [hma, hmb]
      · intro _
        unfold isRegionConnected
        rw [hcells]
    | cons c1 cs =>
      have hc0mem : c0 ∈ regionCellsOf regs rg := by
        rw [hcells]
        exact List.mem_cons_self _ _
      obtain ⟨hc064, hc0r⟩ := mem_regionCellsOf.mp hc0mem
      have hstart := bfsLoop_spec regs rg c0 (gridSize * gridSize) [cellPos c0] [c0]
        (List.nodup_singleton _)
        (by
          intro i hi
          have hi2 : i = c0 := by simpa using hi
          rw [hi2]
          exact ⟨hc064, hc0r, Relation.ReflTransGen.refl⟩)
        (by
          intro p hp
          have hp2 : p = cellPos c0 := by simpa using hp
          rw [hp2]
          refine ⟨(cellPos_lt hc064).1, (cellPos_lt hc064).2, ?_⟩
          rw [cellIndex_cellPos hc064]
          exact List.mem_singleton_self _)
        (by
          intro i hi
          have hi2 : i = c0 := by simpa using hi
          rw [hi2]
          exact Or.inl ⟨cellPos c0, List.mem_singleton_self _, cellIndex_cellPos hc064⟩)
        (by
          simp only [List.length_singleton]
          omega)
      obtain ⟨o1, o2, o3, o4⟩ := hstart
      have hRsub : ∀ i ∈ bfsLoop regs rg (gridSize * gridSize) [cellPos c0] [c0],
          i ∈ regionCellsOf regs rg :=
        fun i hi => mem_regionCellsOf.mpr ⟨(o2 i hi).1, (o2 i hi).2.1⟩
      rw [isRegionConnected_eq_of_cells hcells]
      constructor
      · intro hlen
        have hleneq : (bfsLoop regs rg (gridSize * gridSize) [cellPos c0] [c0]).length =
            (regionCellsOf regs rg).length := by
          simpa using hlen
        have hsubF : (bfsLoop regs rg (gridSize * gridSize) [cellPos c0] [c0]).toFinset ⊆
            (regionCellsOf regs rg).toFinset := by
          intro x hx
          exact List.mem_toFinset.mpr (hRsub x (List.mem_toFinset.mp hx))
        have hFeq : (bfsLoop regs rg (gridSize * gridSize) [cellPos c0] [c0]).toFinset =
            (regionCellsOf regs rg).toFinset := by
          refine Finset.eq_of_subset_of_card_le hsubF ?_
          rw [List.toFinset_card_of_nodup o1,
            List.toFinset_card_of_nodup (regionCellsOf_nodup regs rg), hleneq]
        have hcellsub : ∀ b ∈ regionCellsOf regs rg,
            b ∈ bfsLoop regs rg (gridSize * gridSize) [cellPos c0] [c0] := by
          intro b hb
          have := List.mem_toFinset.mpr hb
          rw [← hFeq] at this
          exact List.mem_toFinset.mp this
        intro a b ha hb hra hrb
        have haR := hcellsub a (mem_regionCellsOf.mpr ⟨ha, hra⟩)
        have hbR := hcellsub b (mem_regionCellsOf.mpr ⟨hb, hrb⟩)
        exact Relation.ReflTransGen.trans
          (rtg_symm_start ⟨hc064, hc0r⟩ (o2 a haR).2.2) (o2 b hbR).2.2
      · intro hspec
        have hcellsub : ∀ b ∈ regionCellsOf regs rg,
            b ∈ bfsLoop regs rg (gridSize * gridSize) [cellPos c0] [c0] := by
          intro b hb
          obtain ⟨hb64, hbr⟩ := mem_regionCellsOf.mp hb
          exact rtg_mem_closed o4 (o3 c0 (List.mem_singleton_self _))
            (hspec c0 b hc064 hb64 hc0r hbr)
        have hFeq : (bfsLoop regs rg (gridSize * gridSize) [cellPos c0] [c0]).toFinset =
            (regionCellsOf regs rg).toFinset := by
          refine Finset.Subset.antisymm ?_ ?_
          · intro x hx
            exact List.mem_toFinset.mpr (hRsub x (List.mem_toFinset.mp hx))
          · intro x hx
            exact List.mem_toFinset.mpr (hcellsub x (List.mem_toFinset.mp hx))
        have hleneq : (bfsLoop regs rg (gridSize * gridSize) [cellPos c0] [c0]).length =
            (regionCellsOf regs rg).length := by
          rw [← List.toFinset_card_of_nodup o1,
            ← List.toFinset_card_of_nodup (regionCellsOf_nodup regs rg), hFeq]
        simpa using hleneq

theorem generateRegionsFromSolutionGo_one (sol : List Pos) (r : RandState)
    (current : List Int) :
    generateRegionsFromSolutionGo sol 1 r current = buildRegions r sol := by
  rw [generateRegionsFromSolutionGo]
  by_cases hacc : (List.range gridSize).all
      (fun rg => isRegionConnected (buildRegions r sol).1 (rg : Int)) = true
  · rw [if_pos hacc]
  · rw [if_neg hacc, generateRegionsFromSolutionGo]

/-- **C6.** (1) For every region board and region number, `isRegionConnected`
returns `true` iff the cell set carrying that label is 4-connected (cell sets
of at most one cell count as connected).  (2) In particular, if some region of
a freshly built partition is not 4-connected and regeneration attempts
remain, `generateRegionsFromSolution` discards the partition and regenerates
instead of accepting it. -/
theorem isRegionConnected_correct :
    (∀ (regs : List Int) (rg : Int),
      isRegionConnected regs rg = true ↔ regionConnectedSpec regs rg) ∧
    (∀ (r : RandState) (sol : List Pos) (current : List Int) (n : Nat),
      n < maxRegenerationAttempts →
      (∃ rg < gridSize, ¬regionConnectedSpec (buildRegions r sol).1 (rg : Int)) →
      generateRegionsFromSolution r sol current n =
        generateRegionsFromSolution (buildRegions r sol).2 sol
          (buildRegions r sol).1 (n + 1)) := by
  refine ⟨isRegionConnected_iff, ?_⟩
  intro r sol current n hn hex
  obtain ⟨rg, hrg, hspec⟩ := hex
  have hfalse : isRegionConnected (buildRegions r sol).1 (rg : Int) = false := by
    rcases Bool.eq_false_or_eq_true (isRegionConnected (buildRegions r sol).1 (rg : Int))
      with h | h
    · exact absurd ((isRegionConnected_iff _ _).mp h) hspec
    · exact h
  have hall : ((List.range gridSize).all
      (fun rg2 => isRegionConnected (buildRegions r sol).1 (rg2 : Int))) = false := by
    rw [List.all_eq_false]
    exact ⟨rg, List.mem_range.mpr hrg, by rw [hfalse]; simp⟩
  unfold generateRegionsFromSolution
  obtain ⟨m, hm⟩ : ∃ m, maxRegenerationAttempts - n = m + 1 := by
    unfold maxRegenerationAttempts at hn ⊢
    exact ⟨10 - n - 1, by omega⟩
  have hm2 : maxRegenerationAttempts - (n + 1) = m := by
    unfold maxRegenerationAttempts at hm ⊢
    omega
  rw [hm, hm2, generateRegionsFromSolutionGo, if_neg (by rw [hall]; simp)]

/-- The partition built by the first attempt under `c2Rand` is the literal
`c2Map` (the depth-9 run consists of exactly this one build). -/
theorem c2_build_eq : (buildRegions c2Rand generateFallbackSolution).1 = c2Map := by
  have h := c2_run_eq
  unfold generateRegionsFromSolution at h
  rw [show maxRegenerationAttempts - 9 = 1 from by decide,
    generateRegionsFromSolutionGo_one] at h
  exact h

/-- Witness for C6 at a concrete disconnected build: region 3 of the
partition built under `c2Rand` is not 4-connected, and the generator entered
at depth 2 regenerates rather than accepting it. -/
theorem isRegionConnected_correct_witness :
    (2 : Nat) < maxRegenerationAttempts ∧
      (∃ rg < gridSize, ¬regionConnectedSpec
        (buildRegions c2Rand generateFallbackSolution).1 (rg : Int)) ∧
      generateRegionsFromSolution c2Rand generateFallbackSolution c2Map 2 =
        generateRegionsFromSolution (buildRegions c2Rand generateFallbackSolution).2
          generateFallbackSolution (buildRegions c2Rand generateFallbackSolution).1 3 := by
  have hex : ∃ rg < gridSize, ¬regionConnectedSpec
      (buildRegions c2Rand generateFallbackSolution).1 (rg : Int) := by
    refine ⟨3, by decide, ?_⟩
    rw [c2_build_eq]
    exact c2Map_not_connected
  exact ⟨by decide, hex,
    isRegionConnected_correct.2 c2Rand generateFallbackSolution c2Map 2 (by decide) hex⟩

/-! ## C4: the capped count equals min(exact count, 2) -/

theorem solve_nil (regs : List Int) (placed : List Pos) (count : Nat) :
    solve regs [] placed count = (count + 1, decide (maxSolutions ≤ count + 1)) := rfl

theorem solve_cons (regs : List Int) (row : Nat) (rest : List Nat) (placed : List Pos)
    (count : Nat) :
    solve regs (row :: rest) placed count =
      (List.range gridSize).foldl (solveF regs row rest placed) (count, false) := rfl

theorem solveF_stop (regs : List Int) (row : Nat) (rest : List Nat) (placed : List Pos) :
    ∀ (cols : List Nat) (acc : Nat × Bool), acc.2 = true →
      cols.foldl (solveF regs row rest placed) acc = acc := by
  intro cols
  induction cols with
  | nil => intro acc h; rfl
  | cons c cs ih =>
    intro acc h
    obtain ⟨n, b⟩ := acc
    dsimp only at h
    subst h
    rw [List.foldl_cons]
    have hstep : solveF regs row rest placed (n, true) c = (n, true) := by
      simp [solveF]
    rw [hstep]
    exact ih (n, true) rfl

theorem solveF_false (regs : List Int) (row : Nat) (rest : List Nat) (placed : List Pos)
    (n : Nat) (col : Nat) :
    solveF regs row rest placed (n, false) col =
      if okCell regs placed row col then solve regs rest (placed ++ [⟨row, col⟩]) n
      else (n, false) := by
  rcases Bool.eq_false_or_eq_true ((placed.map Pos.col).contains col) with h1 | h1
  · simp only [solveF, okCell, h1]
    simp
  · rcases Bool.eq_false_or_eq_true ((placed.map fun b => regAt regs (cellIndex b)).contains
        (regAt regs (row * gridSize + col))) with h2 | h2
    · simp only [solveF, okCell, h1, h2]
      simp
    · rcases Bool.eq_false_or_eq_true
          (placed.any fun bean => touching bean ⟨row, col⟩) with h3 | h3
      · simp only [solveF, okCell, h1, h2, h3]
        simp
      · simp only [solveF, okCell, h1, h2, h3]
        simp

theorem solve_foldl_eq (regs : List Int) (row : Nat) (rest : List Nat) (placed : List Pos)
    (hrec : ∀ (placed' : List Pos) (count : Nat), count < maxSolutions →
      solve regs rest placed' count =
        (min (count + (solLists regs rest placed').length) maxSolutions,
         decide (maxSolutions ≤ count + (solLists regs rest placed').length))) :
    ∀ (cols : List Nat) (count : Nat), count < maxSolutions →
      cols.foldl (solveF regs row rest placed) (count, false) =
        (min (count + (cols.flatMap fun col =>
            if okCell regs placed row col then solLists regs rest (placed ++ [⟨row, col⟩])
            else []).length) maxSolutions,
         decide (maxSolutions ≤ count + (cols.flatMap fun col =>
            if okCell regs placed row col then solLists regs rest (placed ++ [⟨row, col⟩])
            else []).length)) := by
  intro cols
  induction cols with
  | nil =>
    intro count hc
    rw [List.foldl_nil, List.flatMap_nil, List.length_nil, Nat.add_zero]
    refine Prod.ext ?_ ?_
    · dsimp only
      simp only [maxSolutions] at hc ⊢
      omega
    · dsimp only
      symm
      exact decide_eq_false (by omega)
  | cons c cs ih =>
    intro count hc
    rw [List.foldl_cons, solveF_false]
    by_cases hok : okCell regs placed row c
    · rw [if_pos hok]
      rw [hrec (placed ++ [Pos.mk row c]) count hc]
      by_cases h2 : maxSolutions ≤ count + (solLists regs rest (placed ++ [⟨row, c⟩])).length
      · rw [decide_eq_true h2]
        rw [solveF_stop regs row rest placed cs _ rfl]
        have hmin : min (count + (solLists regs rest (placed ++ [⟨row, c⟩])).length)
            maxSolutions = maxSolutions := by omega
        rw [hmin]
        refine Prod.ext ?_ ?_
        · dsimp only
          rw [List.flatMap_cons, if_pos hok, List.length_append]
          omega
        · dsimp only
          symm
          refine decide_eq_true ?_
          rw [List.flatMap_cons, if_pos hok, List.length_append]
          omega
      · have hlt : count + (solLists regs rest (placed ++ [⟨row, c⟩])).length <
            maxSolutions := by omega
        rw [decide_eq_false h2]
        have hmin : min (count + (solLists regs rest (placed ++ [⟨row, c⟩])).length)
            maxSolutions = count + (solLists regs rest (placed ++ [⟨row, c⟩])).length := by
          omega
        rw [hmin]
        rw [ih _ hlt]
        rw [List.flatMap_cons, if_pos hok, List.length_append]
        refine Prod.ext ?_ ?_
        · dsimp only
          omega
        · dsimp only
          rcases le_or_lt maxSolutions
              (count + ((solLists regs rest (placed ++ [⟨row, c⟩])).length +
                (cs.flatMap fun col =>
                  if okCell regs placed row col then
                    solLists regs rest (placed ++ [⟨row, col⟩])
                  else []).length)) with h | h
          · rw [decide_eq_true h, decide_eq_true (by omega)]
          · rw [decide_eq_false (by omega), decide_eq_false (by omega)]
    · rw [if_neg hok]
      rw [ih count hc]
      rw [List.flatMap_cons, if_neg hok, List.nil_append]

theorem solve_eq (regs : List Int) : ∀ (rows : List Nat) (placed : List Pos) (count : Nat),
    count < maxSolutions →
      solve regs rows placed count =
        (min (count + (solLists regs rows placed).length) maxSolutions,
         decide (maxSolutions ≤ count + (solLists regs rows placed).length))
  | [], placed, count, hc => by
    rw [solve_nil]
    have hl : (solLists regs [] placed).length = 1 := rfl
    rw [hl]
    refine Prod.ext ?_ ?_
    · dsimp only
      simp only [maxSolutions] at hc ⊢
      omega
    · rfl
  | row :: rest, placed, count, hc => by
    rw [solve_cons]
    rw [solve_foldl_eq regs row rest placed
      (fun placed' count' hc' => solve_eq regs rest placed' count' hc')
      (List.range gridSize) count hc]
    rfl

theorem countSolutions_eq_min (regs : List Int) :
    countSolutions regs = min (solLists regs (List.range gridSize) []).length maxSolutions := by
  unfold countSolutions
  rw [solve_eq regs (List.range gridSize) [] 0 (by simp [maxSolutions])]
  dsimp only
  rw [Nat.zero_add]

theorem length_filter_flatMap {α β : Type} (p : β → Bool) (l : List α) (f : α → List β) :
    ((l.flatMap f).filter p).length = (l.map fun a => ((f a).filter p).length).sum := by
  induction l with
  | nil => rfl
  | cons a l ih =>
    rw [List.flatMap_cons, List.filter_append, List.length_append, ih, List.map_cons,
      List.sum_cons]

theorem solLists_length (regs : List Int) : ∀ (rows : List Nat) (placed : List Pos),
    (solLists regs rows placed).length =
      ((allAssignments rows.length).filter fun cs => seqValid regs placed rows cs).length
  | [], placed => rfl
  | row :: rest, placed => by
    rw [show solLists regs (row :: rest) placed = (List.range gridSize).flatMap fun col =>
        (if okCell regs placed row col then solLists regs rest (placed ++ [Pos.mk row col])
         else []) from rfl]
    rw [List.length_flatMap]
    rw [show (row :: rest).length = rest.length + 1 from rfl]
    rw [show allAssignments (rest.length + 1) = (List.range gridSize).flatMap fun col =>
        (allAssignments rest.length).map (col :: ·) from rfl]
    rw [length_filter_flatMap]
    have percol : ∀ col : Nat,
        (if okCell regs placed row col then solLists regs rest (placed ++ [Pos.mk row col])
         else []).length =
          (((allAssignments rest.length).map (col :: ·)).filter fun cs =>
            seqValid regs placed (row :: rest) cs).length := by
      intro col
      rw [List.filter_map, List.length_map]
      by_cases hok : okCell regs placed row col
      · rw [if_pos hok]
        rw [solLists_length regs rest (placed ++ [Pos.mk row col])]
        congr 1
        apply List.filter_congr
        intro cs hcs
        show seqValid regs (placed ++ [Pos.mk row col]) rest cs =
          seqValid regs placed (row :: rest) (col :: cs)
        symm
        rw [show seqValid regs placed (row :: rest) (col :: cs) =
            (okCell regs placed row col && seqValid regs (placed ++ [Pos.mk row col]) rest cs)
          from rfl]
        rw [hok, Bool.true_and]
      · rw [if_neg hok]
        rw [List.length_nil]
        symm
        rw [List.length_eq_zero, List.filter_eq_nil_iff]
        intro cs hcs
        show ¬ seqValid regs placed (row :: rest) (col :: cs) = true
        rw [show seqValid regs placed (row :: rest) (col :: cs) =
            (okCell regs placed row col && seqValid regs (placed ++ [Pos.mk row col]) rest cs)
          from rfl]
        simp [hok]
    exact congrArg List.sum (congrArg (fun f => List.map f (List.range gridSize))
      (funext percol))

theorem mem_allAssignments : ∀ (n : Nat) (cs : List Nat),
    cs ∈ allAssignments n ↔ cs.length = n ∧ ∀ c ∈ cs, c < gridSize
  | 0, cs => by
    rw [show allAssignments 0 = [[]] from rfl]
    simp only [List.mem_singleton]
    constructor
    · rintro rfl
      exact ⟨rfl, by intro c hc; cases hc⟩
    · rintro ⟨hlen, h⟩
      exact List.length_eq_zero.1 hlen
  | n + 1, cs => by
    rw [show allAssignments (n + 1) = (List.range gridSize).flatMap fun col =>
        (allAssignments n).map (col :: ·) from rfl]
    rw [List.mem_flatMap]
    constructor
    · rintro ⟨col, hcol, hcs⟩
      rw [List.mem_map] at hcs
      obtain ⟨cs2, hcs2, rfl⟩ := hcs
      rw [mem_allAssignments n cs2] at hcs2
      refine ⟨by rw [List.length_cons, hcs2.1], ?_⟩
      intro c hc
      rcases List.mem_cons.1 hc with rfl | hc
      · exact List.mem_range.1 hcol
      · exact hcs2.2 c hc
    · rintro ⟨hlen, hall⟩
      cases cs with
      | nil => simp at hlen
      | cons c cs2 =>
        refine ⟨c, List.mem_range.2 (hall c (List.mem_cons_self c cs2)), ?_⟩
        rw [List.mem_map]
        refine ⟨cs2, ?_, rfl⟩
        rw [mem_allAssignments n cs2]
        constructor
        · simpa using hlen
        · intro d hd
          exact hall d (List.mem_cons_of_mem c hd)

theorem okCell_iff (regs : List Int) (placed : List Pos) (row col : Nat) :
    okCell regs placed row col = true ↔ ∀ b ∈ placed, compat regs b (Pos.mk row col) := by
  simp [okCell, compat, cellIndex, forall_and]
  tauto

theorem seqValid_iff (regs : List Int) : ∀ (rows cs : List Nat) (placed : List Pos),
    seqValid regs placed rows cs = true ↔
      cs.length = rows.length ∧
      (∀ b ∈ placed, ∀ q ∈ beansOfRows rows cs, compat regs b q) ∧
      (beansOfRows rows cs).Pairwise (compat regs)
  | [], [], placed => by
    simp [seqValid, beansOfRows]
  | [], c :: cs, placed => by
    rw [show seqValid regs placed [] (c :: cs) = false from rfl]
    simp
  | r :: rows, [], placed => by
    rw [show seqValid regs placed (r :: rows) [] = false from rfl]
    simp [beansOfRows]
  | r :: rows, c :: cs, placed => by
    rw [show seqValid regs placed (r :: rows) (c :: cs) =
        (okCell regs placed r c && seqValid regs (placed ++ [Pos.mk r c]) rows cs) from rfl]
    rw [Bool.and_eq_true, okCell_iff, seqValid_iff regs rows cs (placed ++ [Pos.mk r c])]
    rw [show beansOfRows (r :: rows) (c :: cs) = Pos.mk r c :: beansOfRows rows cs from rfl]
    rw [List.pairwise_cons]
    constructor
    · rintro ⟨hok, hlen, hcross, hpw⟩
      refine ⟨by simp [hlen], ?_, ?_, hpw⟩
      · intro b hb q hq
        rcases List.mem_cons.1 hq with rfl | hq
        · exact hok b hb
        · exact hcross b (List.mem_append_left _ hb) q hq
      · intro q hq
        exact hcross (Pos.mk r c) (List.mem_append_right _ (List.mem_singleton_self _)) q hq
    · rintro ⟨hlen, hcross, hhead, hpw⟩
      refine ⟨fun b hb => hcross b hb (Pos.mk r c) (List.mem_cons_self _ _),
        by simpa using hlen, ?_, hpw⟩
      intro b hb q hq
      rcases List.mem_append.1 hb with hb | hb
      · exact hcross b hb q (List.mem_cons_of_mem _ hq)
      · rw [List.mem_singleton] at hb
        subst hb
        exact hhead q hq

theorem seqValid_top_iff (regs : List Int) (cs : List Nat) :
    seqValid regs [] (List.range gridSize) cs = true ↔
      cs.length = gridSize ∧ (beansOfCols cs).Pairwise (compat regs) := by
  rw [show (beansOfCols cs) = beansOfRows (List.range gridSize) cs from rfl]
  rw [seqValid_iff regs (List.range gridSize) cs []]
  simp

theorem sum_map_add {α : Type} (f g : α → Nat) (l : List α) :
    (l.map fun a => f a + g a).sum = (l.map f).sum + (l.map g).sum := by
  induction l with
  | nil => rfl
  | cons a l ih =>
    rw [List.map_cons, List.sum_cons, ih, List.map_cons, List.sum_cons, List.map_cons,
      List.sum_cons]
    omega

theorem sum_map_ite_count {α : Type} [DecidableEq α] (x : α) (targets : List α) :
    (targets.map fun t => if t = x then 1 else 0).sum = targets.count x := by
  induction targets with
  | nil => rfl
  | cons t ts ih =>
    rw [List.map_cons, List.sum_cons, ih]
    by_cases h : t = x
    · subst h
      rw [if_pos rfl, List.count_cons_self]
      omega
    · rw [if_neg h, List.count_cons_of_ne (fun e => h e.symm)]
      omega

theorem count_eq_one_of_nodup_mem {α : Type} [DecidableEq α] {l : List α} {a : α}
    (hnd : l.Nodup) (ha : a ∈ l) : l.count a = 1 := by
  have h1 := List.nodup_iff_count_le_one.1 hnd a
  have h2 := List.count_pos_iff.2 ha
  omega

theorem sum_counts {α : Type} [DecidableEq α] (targets l : List α)
    (hsub : ∀ x ∈ l, x ∈ targets) (hnd : targets.Nodup) :
    (targets.map fun t => l.count t).sum = l.length := by
  induction l with
  | nil => simp
  | cons x l ih =>
    have hsub2 : ∀ y ∈ l, y ∈ targets := fun y hy => hsub y (List.mem_cons_of_mem x hy)
    have h2 : ∀ t, (x :: l).count t = l.count t + if t = x then 1 else 0 := by
      intro t
      by_cases h : t = x
      · subst h
        rw [if_pos rfl, List.count_cons_self]
      · rw [if_neg h, List.count_cons_of_ne h]
        omega
    calc (targets.map fun t => (x :: l).count t).sum
        = (targets.map fun t => l.count t + if t = x then 1 else 0).sum :=
          congrArg List.sum (congrArg (fun f => targets.map f) (funext h2))
      _ = (targets.map fun t => l.count t).sum +
            (targets.map fun t => if t = x then 1 else 0).sum := sum_map_add _ _ _
      _ = l.length + targets.count x := by
          rw [ih hsub2, sum_map_ite_count]
      _ = (x :: l).length := by
          rw [count_eq_one_of_nodup_mem hnd (hsub x (List.mem_cons_self x l)),
            List.length_cons]

theorem sum_le_length : ∀ (xs : List Nat), (∀ x ∈ xs, x ≤ 1) → xs.sum ≤ xs.length := by
  intro xs
  induction xs with
  | nil => intro h; simp
  | cons a l ih =>
    intro h
    rw [List.sum_cons, List.length_cons]
    have ha := h a (List.mem_cons_self a l)
    have hl := ih (fun y hy => h y (List.mem_cons_of_mem a hy))
    omega

theorem all_one_of_sum : ∀ (xs : List Nat), (∀ x ∈ xs, x ≤ 1) → xs.sum = xs.length →
    ∀ x ∈ xs, x = 1 := by
  intro xs
  induction xs with
  | nil => intro _ _ x hx; cases hx
  | cons a l ih =>
    intro hle hsum x hx
    have ha := hle a (List.mem_cons_self a l)
    have hrest : l.sum ≤ l.length := sum_le_length l (fun y hy => hle y (List.mem_cons_of_mem a hy))
    rw [List.sum_cons, List.length_cons] at hsum
    rcases List.mem_cons.1 hx with rfl | hx
    · omega
    · exact ih (fun y hy => hle y (List.mem_cons_of_mem a hy)) (by omega) x hx

theorem count_one_iff_nodup {α : Type} [DecidableEq α] (targets l : List α)
    (hnd : targets.Nodup) (hlen : l.length = targets.length)
    (hsub : ∀ x ∈ l, x ∈ targets) :
    (∀ t ∈ targets, l.count t = 1) ↔ l.Nodup := by
  constructor
  · intro h
    rw [List.nodup_iff_count_le_one]
    intro a
    by_cases ha : a ∈ l
    · exact le_of_eq (h a (hsub a ha))
    · rw [List.count_eq_zero_of_not_mem ha]
      omega
  · intro hnd2 t ht
    have hsum := sum_counts targets l hsub hnd
    have hone : ∀ x ∈ targets.map fun t => l.count t, x ≤ 1 := by
      intro x hx
      obtain ⟨u, hu, rfl⟩ := List.mem_map.1 hx
      exact List.nodup_iff_count_le_one.1 hnd2 u
    have hlen2 : (targets.map fun t => l.count t).sum =
        (targets.map fun t => l.count t).length := by
      rw [hsum, List.length_map, hlen]
    exact all_one_of_sum _ hone hlen2 _ (List.mem_map_of_mem _ ht)

theorem length_filter_map_eq_count {α β : Type} [DecidableEq β] (f : α → β) (y : β)
    (l : List α) :
    (l.filter fun a => decide (f a = y)).length = (l.map f).count y := by
  induction l with
  | nil => rfl
  | cons a l ih =>
    rw [List.map_cons]
    by_cases h : f a = y
    · rw [List.filter_cons_of_pos (by simpa using h), List.length_cons, ih, h,
        List.count_cons_self]
    · rw [List.filter_cons_of_neg (by simpa using h), ih,
        List.count_cons_of_ne (fun e => h e.symm)]

theorem allPairs_all_iff {α : Type} (R : α → α → Bool) : ∀ (l : List α),
    ((allPairs l).all fun pq => R pq.1 pq.2) = true ↔ l.Pairwise (fun a b => R a b = true)
  | [] => by simp [allPairs]
  | b :: bs => by
    rw [show allPairs (b :: bs) = (bs.map fun c => (b, c)) ++ allPairs bs from rfl]
    rw [List.all_append, Bool.and_eq_true, allPairs_all_iff R bs, List.pairwise_cons]
    simp [List.all_map, Function.comp]

theorem beansOfCols_length (cs : List Nat) (hlen : cs.length = gridSize) :
    (beansOfCols cs).length = gridSize := by
  rw [show beansOfCols cs =
      ((List.range gridSize).zip cs).map (fun rc => Pos.mk rc.1 rc.2) from rfl]
  rw [List.length_map, List.length_zip, List.length_range, hlen, Nat.min_self]

theorem beansOfCols_map_row (cs : List Nat) (hlen : cs.length = gridSize) :
    (beansOfCols cs).map Pos.row = List.range gridSize := by
  rw [show beansOfCols cs =
      ((List.range gridSize).zip cs).map (fun rc => Pos.mk rc.1 rc.2) from rfl]
  rw [List.map_map]
  rw [show (Pos.row ∘ fun rc : Nat × Nat => Pos.mk rc.1 rc.2) = Prod.fst from
    funext fun rc => rfl]
  exact List.map_fst_zip _ _ (by rw [hlen, List.length_range])

theorem beansOfCols_map_col (cs : List Nat) (hlen : cs.length = gridSize) :
    (beansOfCols cs).map Pos.col = cs := by
  rw [show beansOfCols cs =
      ((List.range gridSize).zip cs).map (fun rc => Pos.mk rc.1 rc.2) from rfl]
  rw [List.map_map]
  rw [show (Pos.col ∘ fun rc : Nat × Nat => Pos.mk rc.1 rc.2) = Prod.snd from
    funext fun rc => rfl]
  exact List.map_snd_zip _ _ (by rw [hlen, List.length_range])

theorem mem_beansOfCols {cs : List Nat} {b : Pos} (hb : b ∈ beansOfCols cs) :
    b.row < gridSize ∧ b.col ∈ cs := by
  rw [show beansOfCols cs =
      ((List.range gridSize).zip cs).map (fun rc => Pos.mk rc.1 rc.2) from rfl] at hb
  obtain ⟨rc, hrc, rfl⟩ := List.mem_map.1 hb
  have h := List.of_mem_zip hrc
  exact ⟨List.mem_range.1 h.1, h.2⟩

theorem beansOfCols_row_filter (cs : List Nat) (hlen : cs.length = gridSize) (i : Nat)
    (hi : i < gridSize) :
    ((beansOfCols cs).filter fun b => decide (b.row = i)).length = 1 := by
  rw [length_filter_map_eq_count Pos.row i, beansOfCols_map_row cs hlen]
  exact count_eq_one_of_nodup_mem (List.nodup_range _) (List.mem_range.2 hi)

theorem beansOfCols_col_counts (cs : List Nat) (hlen : cs.length = gridSize)
    (hcs : ∀ c ∈ cs, c < gridSize) :
    (∀ j ∈ List.range gridSize,
        ((beansOfCols cs).filter fun b => decide (b.col = j)).length = 1) ↔
      (beansOfCols cs).Pairwise fun a b => a.col ≠ b.col := by
  have hmap : (beansOfCols cs).map Pos.col = cs := beansOfCols_map_col cs hlen
  have step1 : (∀ j ∈ List.range gridSize,
      ((beansOfCols cs).filter fun b => decide (b.col = j)).length = 1) ↔
      ∀ j ∈ List.range gridSize, cs.count j = 1 := by
    constructor <;> intro h j hj <;> have hx := h j hj
    · rwa [length_filter_map_eq_count Pos.col j, hmap] at hx
    · rw [length_filter_map_eq_count Pos.col j, hmap]
      exact hx
  rw [step1]
  rw [count_one_iff_nodup (List.range gridSize) cs (List.nodup_range _)
    (by rw [hlen, List.length_range]) (fun x hx => List.mem_range.2 (hcs x hx))]
  constructor
  · intro h
    have h2 : ((beansOfCols cs).map Pos.col).Nodup := by rw [hmap]; exact h
    exact List.pairwise_map.1 h2
  · intro h
    have h2 : ((beansOfCols cs).map Pos.col).Nodup := List.pairwise_map.2 h
    rw [hmap] at h2
    exact h2

theorem beansOfCols_reg_counts (regs : List Int)
    (hvals : ∀ i < gridSize * gridSize, 0 ≤ regAt regs i ∧ regAt regs i < (gridSize : Int))
    (cs : List Nat) (hlen : cs.length = gridSize) (hcs : ∀ c ∈ cs, c < gridSize) :
    (∀ rg ∈ List.range gridSize,
        ((beansOfCols cs).filter fun b =>
          decide (regAt regs (cellIndex b) = (rg : Int))).length = 1) ↔
      (beansOfCols cs).Pairwise fun a b =>
        regAt regs (cellIndex a) ≠ regAt regs (cellIndex b) := by
  have hcell : ∀ b ∈ beansOfCols cs, cellIndex b < gridSize * gridSize := by
    intro b hb
    obtain ⟨hrow, hcol⟩ := mem_beansOfCols hb
    have hc := hcs _ hcol
    unfold cellIndex
    unfold gridSize at hrow hc ⊢
    omega
  have hsub : ∀ x ∈ (beansOfCols cs).map fun b => regAt regs (cellIndex b),
      x ∈ (List.range gridSize).map (fun k : Nat => (k : Int)) := by
    intro x hx
    obtain ⟨b, hb, rfl⟩ := List.mem_map.1 hx
    obtain ⟨h0, h8⟩ := hvals _ (hcell b hb)
    refine List.mem_map.2 ⟨(regAt regs (cellIndex b)).toNat, List.mem_range.2 (by omega), ?_⟩
    omega
  have hnd : ((List.range gridSize).map (fun k : Nat => (k : Int))).Nodup := by
    refine (List.nodup_range _).map ?_
    intro a b hab
    exact Nat.cast_injective hab
  have hlen2 : ((beansOfCols cs).map fun b => regAt regs (cellIndex b)).length =
      ((List.range gridSize).map (fun k : Nat => (k : Int))).length := by
    rw [List.length_map, List.length_map, List.length_range, beansOfCols_length cs hlen]
  have step1 : (∀ rg ∈ List.range gridSize,
      ((beansOfCols cs).filter fun b =>
        decide (regAt regs (cellIndex b) = (rg : Int))).length = 1) ↔
      ∀ t ∈ (List.range gridSize).map (fun k : Nat => (k : Int)),
        ((beansOfCols cs).map fun b => regAt regs (cellIndex b)).count t = 1 := by
    constructor
    · intro h t ht
      obtain ⟨k, hk, rfl⟩ := List.mem_map.1 ht
      rw [← length_filter_map_eq_count (fun b => regAt regs (cellIndex b)) (k : Int)]
      exact h k hk
    · intro h rg hrg
      rw [length_filter_map_eq_count (fun b => regAt regs (cellIndex b)) (rg : Int)]
      exact h _ (List.mem_map.2 ⟨rg, hrg, rfl⟩)
  rw [step1]
  rw [count_one_iff_nodup _ _ hnd hlen2 hsub]
  exact List.pairwise_map

theorem allPairs_not_touching_iff (l : List Pos) :
    ((allPairs l).all fun pq => !touching pq.1 pq.2) = true ↔
      l.Pairwise fun a b => touching a b = false := by
  rw [allPairs_all_iff fun a b => !touching a b]
  constructor <;> intro h <;> exact h.imp (fun hab => by simpa using hab)

theorem fourConstraintsHold_iff (regs : List Int)
    (hvals : ∀ i < gridSize * gridSize, 0 ≤ regAt regs i ∧ regAt regs i < (gridSize : Int))
    (cs : List Nat) (hlen : cs.length = gridSize) (hcs : ∀ c ∈ cs, c < gridSize) :
    fourConstraintsHold regs cs = true ↔ (beansOfCols cs).Pairwise (compat regs) := by
  unfold fourConstraintsHold
  rw [Bool.and_eq_true, Bool.and_eq_true, Bool.and_eq_true]
  constructor
  · rintro ⟨⟨⟨hA, hB⟩, hC⟩, hD⟩
    simp only [List.all_eq_true, decide_eq_true_eq] at hB hC
    have hcol := (beansOfCols_col_counts cs hlen hcs).1 hB
    have hreg := (beansOfCols_reg_counts regs hvals cs hlen hcs).1 hC
    have htch := (allPairs_not_touching_iff _).1 hD
    exact ((hcol.and hreg).and htch).imp fun h => ⟨h.1.1, h.1.2, h.2⟩
  · intro h
    refine ⟨⟨⟨?_, ?_⟩, ?_⟩, ?_⟩
    · simp only [List.all_eq_true, decide_eq_true_eq]
      intro i hi
      exact beansOfCols_row_filter cs hlen i (List.mem_range.1 hi)
    · simp only [List.all_eq_true, decide_eq_true_eq]
      exact (beansOfCols_col_counts cs hlen hcs).2 (h.imp fun hc => hc.1)
    · simp only [List.all_eq_true, decide_eq_true_eq]
      exact (beansOfCols_reg_counts regs hvals cs hlen hcs).2 (h.imp fun hc => hc.2.1)
    · exact (allPairs_not_touching_iff _).2 (h.imp fun hc => hc.2.2)

theorem exactSolutionCount_eq (regs : List Int)
    (hvals : ∀ i < gridSize * gridSize, 0 ≤ regAt regs i ∧ regAt regs i < (gridSize : Int)) :
    exactSolutionCount regs =
      ((allAssignments gridSize).filter fun cs =>
        seqValid regs [] (List.range gridSize) cs).length := by
  unfold exactSolutionCount
  refine congrArg List.length ?_
  apply List.filter_congr
  intro cs hcs
  obtain ⟨hlen, hbound⟩ := (mem_allAssignments gridSize cs).1 hcs
  rw [Bool.eq_iff_iff]
  rw [fourConstraintsHold_iff regs hvals cs hlen hbound, seqValid_top_iff]
  constructor
  · intro h
    exact ⟨hlen, h⟩
  · intro h
    exact h.2

/-- **C4.** For every well-formed region map (64 region values, each in
`[0, gridSize)`), `countSolutions` returns a value in `[0, 2]`: it equals
the exact number of placements of `gridSize` markers satisfying all four
constraints (one per row, one per column, one per region, no touching
pair) whenever that number is at most 1, and it returns 2 whenever that
number is at least 2. -/
theorem countSolutions_exact (regs : List Int)
    (hvals : ∀ i < gridSize * gridSize, 0 ≤ regAt regs i ∧ regAt regs i < (gridSize : Int)) :
    countSolutions regs ≤ maxSolutions ∧
      (exactSolutionCount regs ≤ 1 → countSolutions regs = exactSolutionCount regs) ∧
      (maxSolutions ≤ exactSolutionCount regs → countSolutions regs = maxSolutions) := by
  have h1 : countSolutions regs = min (exactSolutionCount regs) maxSolutions := by
    rw [countSolutions_eq_min, solLists_length regs (List.range gridSize) [],
      List.length_range, ← exactSolutionCount_eq regs hvals]
  rw [h1]
  simp only [maxSolutions]
  omega

/-- Witness for C4: the row-striped region map is well-formed, and the
theorem's conclusion holds for it. -/
theorem countSolutions_exact_witness :
    (∀ i < gridSize * gridSize, 0 ≤ regAt c4Regs i ∧ regAt c4Regs i < (gridSize : Int)) ∧
      (countSolutions c4Regs ≤ maxSolutions ∧
        (exactSolutionCount c4Regs ≤ 1 → countSolutions c4Regs = exactSolutionCount c4Regs) ∧
        (maxSolutions ≤ exactSolutionCount c4Regs → countSolutions c4Regs = maxSolutions)) :=
  ⟨by decide, countSolutions_exact c4Regs (by decide)⟩

/-! ## C3: the uniqueness loop -/

theorem uniqueRegs_count : countSolutions uniqueRegs = 1 := by decide

/-- **C3.** Throughout `initializeGame`'s uniqueness loop the solution is
never modified: each regeneration step rewrites only `regions` (every other
state field is preserved), and whenever the loop exits, the final state
carries the initial solution and `countSolutions` on its regions returns
exactly 1. -/
theorem initializeGame_loop_spec :
    (∀ (r : RandState) (s : GameState),
      (regenerateRegions r s).1.solution = s.solution ∧
      (regenerateRegions r s).1.beansPlaced = s.beansPlaced ∧
      (regenerateRegions r s).1.xMarkers = s.xMarkers ∧
      (regenerateRegions r s).1.autoXMarkers = s.autoXMarkers ∧
      (regenerateRegions r s).1.gameActive = s.gameActive) ∧
    (∀ (fuel : Nat) (r : RandState) (s out : GameState) (r2 : RandState),
      initializeGameLoop r s fuel = some (out, r2) →
        out.solution = s.solution ∧ countSolutions out.regions = 1) := by
  constructor
  · intro r s
    exact ⟨rfl, rfl, rfl, rfl, rfl⟩
  · intro fuel
    induction fuel with
    | zero =>
      intro r s out r2 h
      cases h
    | succ n ih =>
      intro r s out r2 h
      unfold initializeGameLoop at h
      by_cases hc : countSolutions s.regions = 1
      · rw [if_pos hc] at h
        have h1 : (s, r) = (out, r2) := Option.some.inj h
        have h2 : s = out := congrArg Prod.fst h1
        subst h2
        exact ⟨rfl, hc⟩
      · rw [if_neg hc] at h
        have hrec := ih (regenerateRegions r s).2 (regenerateRegions r s).1 out r2 h
        refine ⟨?_, hrec.2⟩
        rw [hrec.1]
        rfl

/-- Witness for C3: on the unique-solution region map the loop exits on its
first test, and the exit state's region count is 1. -/
theorem initializeGame_loop_spec_witness :
    initializeGameLoop c7Rand uniqueState 1 = some (uniqueState, c7Rand) ∧
      countSolutions uniqueState.regions = 1 := by
  have hstep : initializeGameLoop c7Rand uniqueState 1 = some (uniqueState, c7Rand) := by
    unfold initializeGameLoop
    rw [if_pos]
    exact uniqueRegs_count
  exact ⟨hstep,
    (initializeGame_loop_spec.2 1 c7Rand uniqueState uniqueState c7Rand hstep).2⟩

/-! ## C9 and C10 -/

/-- **C9.** `countSolutions` mutates neither the solution nor the regions:
the game state after a call is the state before it, in particular the
`solution` and `regions` fields are unchanged. -/
theorem countSolutions_frame (s : GameState) :
    (countSolutionsS s).2.solution = s.solution ∧
      (countSolutionsS s).2.regions = s.regions :=
  ⟨rfl, rfl⟩

/-- **C10.** Calling `checkSolution` on an active game whose number of
placed beans differs from `gridSize` reports the bean-count message and
returns with the state unchanged (every field, including `beansPlaced`,
`xMarkers`, `autoXMarkers`, `solution`, `regions` and `gameActive`), and
the result carries no row/column/region/adjacency violations. -/
theorem checkSolution_notAllBeans (s : GameState) (hactive : s.gameActive = true)
    (hlen : s.beansPlaced.length ≠ gridSize) :
    checkSolution s = (s, CheckResult.notAllBeans) := by
  unfold checkSolution
  rw [if_neg (by simp [hactive]), if_pos hlen]

/-- Witness for C10: a concrete active state with an empty placement. -/
theorem checkSolution_notAllBeans_witness :
    uniqueState.gameActive = true ∧ uniqueState.beansPlaced.length ≠ gridSize ∧
      checkSolution uniqueState = (uniqueState, CheckResult.notAllBeans) :=
  ⟨rfl, by decide, checkSolution_notAllBeans uniqueState rfl (by decide)⟩

/-! ## C8: validation is order-independent and idempotent -/

theorem filter_length_perm {α : Type} {l1 l2 : List α} (h : l1.Perm l2) (p : α → Bool) :
    (l1.filter p).length = (l2.filter p).length :=
  (h.filter p).length_eq

theorem mem_allPairs_iff {α : Type} : ∀ (l : List α), l.Nodup → ∀ p q : α,
    ((p, q) ∈ allPairs l ∨ (q, p) ∈ allPairs l) ↔ (p ≠ q ∧ p ∈ l ∧ q ∈ l)
  | [], hnd, p, q => by simp [allPairs]
  | b :: bs, hnd, p, q => by
    obtain ⟨hb, hnd2⟩ := List.pairwise_cons.1 hnd
    have hbmem : b ∉ bs := fun hmem => hb b hmem rfl
    have hsplit : ∀ x y : α, (x, y) ∈ allPairs (b :: bs) ↔
        (x = b ∧ y ∈ bs) ∨ (x, y) ∈ allPairs bs := by
      intro x y
      rw [show allPairs (b :: bs) = (bs.map fun c => (b, c)) ++ allPairs bs from rfl]
      rw [List.mem_append, List.mem_map]
      constructor
      · rintro (⟨c, hc, he⟩ | h)
        · rw [Prod.mk.injEq] at he
          exact Or.inl ⟨he.1.symm, he.2.symm ▸ hc⟩
        · exact Or.inr h
      · rintro (⟨rfl, hy⟩ | h)
        · exact Or.inl ⟨y, hy, rfl⟩
        · exact Or.inr h
    rw [hsplit p q, hsplit q p, List.mem_cons, List.mem_cons]
    have ihbs := mem_allPairs_iff bs hnd2 p q
    constructor
    · rintro ((⟨rfl, hq⟩ | hpq) | (⟨rfl, hp⟩ | hqp))
      · exact ⟨fun e => hbmem (e ▸ hq), Or.inl rfl, Or.inr hq⟩
      · have h := ihbs.1 (Or.inl hpq)
        exact ⟨h.1, Or.inr h.2.1, Or.inr h.2.2⟩
      · exact ⟨fun e => hbmem (e ▸ hp), Or.inr hp, Or.inl rfl⟩
      · have h := ihbs.1 (Or.inr hqp)
        exact ⟨h.1, Or.inr h.2.1, Or.inr h.2.2⟩
    · rintro ⟨hne, (rfl | hp), (hq | hq)⟩
      · exact absurd hq.symm hne
      · exact Or.inl (Or.inl ⟨rfl, hq⟩)
      · exact Or.inr (Or.inl ⟨hq, hp⟩)
      · rcases ihbs.2 ⟨hne, hp, hq⟩ with h | h
        · exact Or.inl (Or.inr h)
        · exact Or.inr (Or.inr h)

theorem touchingPairs_unordered (l : List Pos) (hnd : l.Nodup) (p q : Pos) :
    ((p, q) ∈ touchingPairs l ∨ (q, p) ∈ touchingPairs l) ↔
      p ≠ q ∧ p ∈ l ∧ q ∈ l ∧ touching p q = true := by
  unfold touchingPairs
  rw [List.mem_filter, List.mem_filter]
  dsimp only
  rw [show touching q p = touching p q from touching_comm q p]
  constructor
  · rintro (⟨ha, ht⟩ | ⟨ha, ht⟩)
    · have h := (mem_allPairs_iff l hnd p q).1 (Or.inl ha)
      exact ⟨h.1, h.2.1, h.2.2, ht⟩
    · have h := (mem_allPairs_iff l hnd p q).1 (Or.inr ha)
      exact ⟨h.1, h.2.1, h.2.2, ht⟩
  · rintro ⟨hne, hp, hq, ht⟩
    rcases (mem_allPairs_iff l hnd p q).2 ⟨hne, hp, hq⟩ with ha | ha
    · exact Or.inl ⟨ha, ht⟩
    · exact Or.inr ⟨ha, ht⟩

theorem checkSolution_idem_aux (s s2 : GameState) (e : List Violation)
    (h : checkSolution s = (s2, CheckResult.hasErrors e)) :
    checkSolution s2 = (s2, CheckResult.hasErrors e) := by
  unfold checkSolution at h ⊢
  by_cases h1 : s.gameActive = false
  · rw [if_pos h1] at h
    simp at h
  · rw [if_neg h1] at h
    by_cases h2 : s.beansPlaced.length ≠ gridSize
    · rw [if_pos h2] at h
      simp at h
    · rw [if_neg h2] at h
      dsimp only at h
      by_cases h3 : (checkErrors s.regions s.beansPlaced).isEmpty = true
      · rw [if_pos h3] at h
        simp at h
      · rw [if_neg h3] at h
        rw [Prod.mk.injEq] at h
        obtain ⟨rfl, he⟩ := h
        rw [CheckResult.hasErrors.injEq] at he
        rw [if_neg h1, if_neg h2]
        dsimp only
        rw [if_neg h3, he]

/-- **C8.** Player-placement validation is order-independent and
idempotent: permuting a duplicate-free placement leaves the row-count,
column-count and region-count violation lists unchanged and preserves the
unordered adjacent-pair violation set; and a state returned with a
violation list re-validates to the very same violation list. -/
theorem checkSolution_perm_invariant (regs : List Int) (beans1 beans2 : List Pos)
    (hperm : beans1.Perm beans2) (hnd : beans1.Nodup) :
    rowCountViolations beans1 = rowCountViolations beans2 ∧
      colCountViolations beans1 = colCountViolations beans2 ∧
      regionCountViolations regs beans1 = regionCountViolations regs beans2 ∧
      (∀ p q : Pos,
        ((p, q) ∈ touchingPairs beans1 ∨ (q, p) ∈ touchingPairs beans1) ↔
          ((p, q) ∈ touchingPairs beans2 ∨ (q, p) ∈ touchingPairs beans2)) ∧
      (∀ (s s2 : GameState) (e : List Violation),
        checkSolution s = (s2, CheckResult.hasErrors e) →
          checkSolution s2 = (s2, CheckResult.hasErrors e)) := by
  have hnd2 : beans2.Nodup := hperm.nodup hnd
  refine ⟨?_, ?_, ?_, ?_, checkSolution_idem_aux⟩
  · unfold rowCountViolations
    apply List.filter_congr
    intro i hi
    rw [filter_length_perm hperm]
  · unfold colCountViolations
    apply List.filter_congr
    intro j hj
    rw [filter_length_perm hperm]
  · unfold regionCountViolations
    apply List.filter_congr
    intro rg hrg
    rw [filter_length_perm hperm]
  · intro p q
    rw [touchingPairs_unordered beans1 hnd p q, touchingPairs_unordered beans2 hnd2 p q]
    simp only [hperm.mem_iff]

/-- Witness for C8: the fallback solution against its reversal. -/
theorem checkSolution_perm_invariant_witness :
    generateFallbackSolution.Perm generateFallbackSolution.reverse ∧
      generateFallbackSolution.Nodup ∧
      (rowCountViolations generateFallbackSolution =
          rowCountViolations generateFallbackSolution.reverse ∧
        colCountViolations generateFallbackSolution =
          colCountViolations generateFallbackSolution.reverse ∧
        regionCountViolations c4Regs generateFallbackSolution =
          regionCountViolations c4Regs generateFallbackSolution.reverse ∧
        (∀ p q : Pos,
          ((p, q) ∈ touchingPairs generateFallbackSolution ∨
              (q, p) ∈ touchingPairs generateFallbackSolution) ↔
            ((p, q) ∈ touchingPairs generateFallbackSolution.reverse ∨
              (q, p) ∈ touchingPairs generateFallbackSolution.reverse)) ∧
        (∀ (s s2 : GameState) (e : List Violation),
          checkSolution s = (s2, CheckResult.hasErrors e) →
            checkSolution s2 = (s2, CheckResult.hasErrors e))) :=
  ⟨(List.reverse_perm generateFallbackSolution).symm, by decide,
    checkSolution_perm_invariant c4Regs generateFallbackSolution
      generateFallbackSolution.reverse
      ((List.reverse_perm generateFallbackSolution).symm) (by decide)⟩

end Beans
